import Mathlib

/-!
# Verification of the icmsg-rs shared-memory transport

A shallow embedding of the low-level ICMsg transport of `src/transport.rs`
(`Sender::send`, `Receiver::try_recv`, `IcMsgTransport::new`), together with
proofs of the specification claims about it.

One direction of the channel is modelled by a `Ring`: the shared-memory
region's two index words and its data area (a byte function `Nat → Nat`;
all accesses made by the code stay inside `[0, bufferLen)`), plus the two
locally cached indices (`Sender.send_wr_idx`, `Receiver.recv_rd_idx`) and a
count of notifier invocations.  Machine integers are modelled as `Nat` with
explicit `% 2 ^ 16` where the source casts to `u16`; the index arithmetic of
the source never overflows `u32` for the buffer sizes it supports, so the
`u32` indices are plain `Nat`s.
-/

namespace IcmsgRs

/-- Payload length rounded up to the next multiple of 4:
`msg.len() + (4 - msg.len() % 4) % 4` in `Sender::send` / `Receiver::try_recv`. -/
def paddedLen (L : Nat) : Nat := L + (4 - L % 4) % 4

/-- Number of ring bytes one framed packet occupies: the 4-byte
`PacketHeader` plus the padded payload. -/
def frameLen (m : List Nat) : Nat := 4 + paddedLen m.length

/-- Total number of ring bytes occupied by the frames of a queue of
pending messages. -/
def queueLen (q : List (List Nat)) : Nat := (q.map frameLen).sum

/-- Pointwise update of the ring contents: one byte store. -/
def upd (d : Nat → Nat) (i v : Nat) : Nat → Nat := fun x => if x = i then v else d x

/-- `memcpy` of the bytes `bs` into the ring, starting at absolute
offset `i` of the data area. -/
def writeBytesAt (d : Nat → Nat) (i : Nat) : List Nat → Nat → Nat
  | [] => d
  | b :: bs => writeBytesAt (upd d i b) (i + 1) bs

/-- `memcpy` of `n` ring bytes starting at absolute data-area offset `i`
into the caller's buffer `out`, starting at buffer position `j`. -/
def copyFrom (out : List Nat) (j : Nat) (d : Nat → Nat) (i : Nat) : Nat → List Nat
  | 0 => out
  | Nat.succ n => copyFrom (out.set j (d i)) (j + 1) d (i + 1) n

/-- One direction of the channel: the shared region's `rd_idx`/`wr_idx`
words and data area, the sender's cached `send_wr_idx`, the receiver's
cached `recv_rd_idx`, and how often the notifier has fired. -/
structure Ring where
  bufferLen : Nat
  /-- shared `rd_idx` word -/
  rdIdx : Nat
  /-- shared `wr_idx` word -/
  wrIdx : Nat
  /-- `Receiver.recv_rd_idx`, the local cached copy -/
  recvRdIdx : Nat
  /-- `Sender.send_wr_idx`, the local cached copy -/
  sendWrIdx : Nat
  /-- contents of the `data` area, by byte offset -/
  data : Nat → Nat
  /-- number of `Notifier::notify` invocations so far -/
  notifyCount : Nat

/-- `SendError` of src/transport.rs (lines 257-264). -/
inductive SendError where
  | InsufficientCapacity
  | InvalidState
deriving DecidableEq, Repr

/-- `RecvError` of src/transport.rs (lines 266-275). -/
inductive RecvError where
  | MessageTooBig
  | Empty
  | InvalidMessage
deriving DecidableEq, Repr

/-- Result of `Receiver::try_recv`: `Result<usize, RecvError>`. -/
inductive RecvResult where
  | ok (n : Nat)
  | err (e : RecvError)
deriving DecidableEq, Repr

/-- The data writes performed by `Sender::send` (src/transport.rs lines
204-234): the 4-byte `PacketHeader` at offset `wr` — only the two
big-endian length bytes are modelled, the two reserved bytes are written
uninitialised by the source and never read — then the payload starting at
the wrapped offset `wr + 4`, split into two `memcpy`s when it wraps past
the end of the data area. -/
def sendData (d : Nat → Nat) (B wr : Nat) (m : List Nat) : Nat → Nat :=
  let hdr := m.length % 65536
  let d1 := upd (upd d wr (hdr / 256)) (wr + 1) (hdr % 256)
  let wr1 := if wr + 4 ≥ B then 0 else wr + 4
  let tail := B - wr1
  if m.length > tail then
    writeBytesAt (writeBytesAt d1 wr1 (m.take tail)) 0 (m.drop tail)
  else
    writeBytesAt d1 wr1 m

/-- `Sender::send` (src/transport.rs lines 188-249).  Reads the shared
`rd_idx` and the cached `send_wr_idx`, checks the free space (one byte of
the data area is always kept unused), and on success writes the frame,
advances and publishes `wr_idx`, and fires the notifier once. -/
def send (s : Ring) (msg : List Nat) : Ring × Option SendError :=
  let wr := s.sendWrIdx
  let rd := s.rdIdx
  let freeSpace := if rd > wr then rd - wr - 1 else rd + s.bufferLen - wr - 1
  let pml := paddedLen msg.length
  if freeSpace < pml + 4 then
    (s, some SendError.InsufficientCapacity)
  else
    let wr1 := if wr + 4 ≥ s.bufferLen then 0 else wr + 4
    let wr2 := wr1 + pml
    let wr3 := if wr2 ≥ s.bufferLen then wr2 - s.bufferLen else wr2
    ({ s with data := sendData s.data s.bufferLen wr msg,
              sendWrIdx := wr3, wrIdx := wr3,
              notifyCount := s.notifyCount + 1 }, none)

/-- The payload copy performed by `Receiver::try_recv` (src/transport.rs
lines 138-149): `msgLen` ring bytes starting at the wrapped offset `rd1`
into the front of `out`, split into two `memcpy`s at the wrap. -/
def recvCopy (out : List Nat) (d : Nat → Nat) (B rd1 msgLen : Nat) : List Nat :=
  let tail := B - rd1
  if msgLen > tail then
    copyFrom (copyFrom out 0 d rd1 tail) tail d 0 (msgLen - tail)
  else
    copyFrom out 0 d rd1 msgLen

/-- `Receiver::try_recv` (src/transport.rs lines 109-163).  Reads the
shared `wr_idx` and the cached `recv_rd_idx`; on the error paths nothing
has been stored yet, so the state and the caller's buffer are returned
unchanged. -/
def tryRecv (s : Ring) (out : List Nat) : Ring × List Nat × RecvResult :=
  if s.wrIdx = s.recvRdIdx then
    (s, out, RecvResult.err RecvError.Empty)
  else
    let rd := s.recvRdIdx
    let msgLen := s.data rd * 256 + s.data (rd + 1)
    let rd1 := if rd + 4 ≥ s.bufferLen then 0 else rd + 4
    if msgLen > out.length then
      (s, out, RecvResult.err RecvError.MessageTooBig)
    else if msgLen > s.bufferLen then
      (s, out, RecvResult.err RecvError.InvalidMessage)
    else
      let rd2 := rd1 + paddedLen msgLen
      let rd3 := if rd2 ≥ s.bufferLen then rd2 - s.bufferLen else rd2
      ({ s with recvRdIdx := rd3, rdIdx := rd3 },
       recvCopy out s.data s.bufferLen rd1 msgLen, RecvResult.ok msgLen)

/-- A ring direction whose reader and writer agree on a common index `p`
and whose FIFO is therefore empty; `d` is the (arbitrary, stale) content
of the data area. -/
def emptyRingAt (B p : Nat) (d : Nat → Nat) : Ring :=
  { bufferLen := B, rdIdx := p, wrIdx := p, recvRdIdx := p, sendWrIdx := p,
    data := d, notifyCount := 0 }

/-- One direction right after `IcMsgTransport::new`: both index words of
the region zeroed and both local caches zero. -/
def initRing (B : Nat) (d : Nat → Nat) : Ring := emptyRingAt B 0 d

/-- One call made on a direction: a `send` of a message, or a `try_recv`
with a caller buffer of the given length. -/
inductive Op where
  | send (m : List Nat)
  | recv (outLen : Nat)
deriving DecidableEq, Repr

/-- Drives a sequence of `send`/`try_recv` calls on one direction.
Returns the final state, the successfully received messages in order, and
whether every `send` in the sequence succeeded. -/
def run (s : Ring) : List Op → Ring × List (List Nat) × Bool
  | [] => (s, [], true)
  | Op.send m :: ops =>
    let r := send s m
    let rest := run r.1 ops
    (rest.1, rest.2.1, r.2.isNone && rest.2.2)
  | Op.recv n :: ops =>
    let r := tryRecv s (List.replicate n 0)
    match r.2.2 with
    | RecvResult.ok k =>
      let rest := run r.1 ops
      (rest.1, r.2.1.take k :: rest.2.1, rest.2.2)
    | RecvResult.err _ =>
      let rest := run r.1 ops
      (rest.1, rest.2.1, rest.2.2)

/-- The messages passed to `send` in a call sequence, in order. -/
def sentOf (ops : List Op) : List (List Nat) :=
  ops.filterMap fun op => match op with
    | Op.send m => some m
    | Op.recv _ => none

/-- The two 32-bit index words at the head of one shared region. -/
structure RegionWords where
  rd : Nat
  wr : Nat
deriving DecidableEq, Repr

/-- The effect of `IcMsgTransport::new` (src/transport.rs lines 36-66) on
the index words: it stores 0 into the *send* region's `wr_idx` and
`rd_idx` (lines 49-52) and does not touch the recv region's words; both
local cached indices start at 0.  Returns
(send-region words, recv-region words, `send_wr_idx`, `recv_rd_idx`). -/
def transportNew (sendW recvW : RegionWords) : RegionWords × RegionWords × Nat × Nat :=
  let _ := sendW
  ({ rd := 0, wr := 0 }, recvW, 0, 0)

/-- The effect of `IcMsg::new` (src/lib.rs lines 41-61) on the index
words: it only records pointers and lengths and stores nothing into
either region, so both regions' words are returned unchanged (its
contract requires the caller to have zeroed the header words). -/
def icmsgNew (sendW recvW : RegionWords) : RegionWords × RegionWords :=
  (sendW, recvW)

/-- `IcMsg::try_recv` (src/lib.rs lines 126-176), the older in-crate
variant of the receive path.  It differs from `Receiver::try_recv` of
transport.rs in three ways, all modelled here: it keeps no local cached
read index (the load and the final store both go to the shared `rd_idx`
word), it has no `InvalidMessage` check, and the wrap branch of its copy
splits the whole output buffer (`msg.split_at_mut(tail_size)`, so the
second `memcpy` copies `out.len() - tail_size` bytes), not just the
message prefix. -/
def tryRecvIcMsg (s : Ring) (out : List Nat) : Ring × List Nat × RecvResult :=
  if s.wrIdx = s.rdIdx then
    (s, out, RecvResult.err RecvError.Empty)
  else
    let rd := s.rdIdx
    let msgLen := s.data rd * 256 + s.data (rd + 1)
    let rd1 := if rd + 4 ≥ s.bufferLen then 0 else rd + 4
    if msgLen > out.length then
      (s, out, RecvResult.err RecvError.MessageTooBig)
    else
      let tail := s.bufferLen - rd1
      let out2 := if msgLen > tail then
          copyFrom (copyFrom out 0 s.data rd1 tail) tail s.data 0 (out.length - tail)
        else
          copyFrom out 0 s.data rd1 msgLen
      let rd2 := rd1 + paddedLen msgLen
      let rd3 := if rd2 ≥ s.bufferLen then rd2 - s.bufferLen else rd2
      ({ s with rdIdx := rd3 }, out2, RecvResult.ok msgLen)

/-- Free bytes of the send ring exactly as the spec words it:
`(rd_idx − wr_idx − 1) mod buffer_len`, in integer arithmetic. -/
def freeSpecOf (s : Ring) : Nat :=
  (((s.rdIdx : Int) - (s.sendWrIdx : Int) - 1) % (s.bufferLen : Int)).toNat

/-- The big-endian length field of the packet header at the receiver's
cached read index. -/
def headerLenAt (s : Ring) : Nat :=
  s.data s.recvRdIdx * 256 + s.data (s.recvRdIdx + 1)

/-- The `try_recv` outcome taxonomy as the spec words it (claim C4):
`Empty` iff `wr_idx == rd_idx`; otherwise, for a next packet of header
length `L`, `MessageTooBig` if `L` exceeds the caller's buffer, else
`InvalidMessage` if `L` exceeds `recv_buffer_len`, else success with `L`. -/
def recvOutcomeSpec (s : Ring) (outLen : Nat) : RecvResult :=
  if s.wrIdx = s.recvRdIdx then RecvResult.err RecvError.Empty
  else if headerLenAt s > outLen then RecvResult.err RecvError.MessageTooBig
  else if headerLenAt s > s.bufferLen then RecvResult.err RecvError.InvalidMessage
  else RecvResult.ok (headerLenAt s)

/-- The data-area offset just past the packet header, as `try_recv`
computes it (`rd_idx += 4`, reset to 0 at the end of the area). -/
def rdPastHeader (s : Ring) : Nat :=
  if s.recvRdIdx + 4 ≥ s.bufferLen then 0 else s.recvRdIdx + 4

/-- Index well-formedness of one direction driven sequentially: the shared
words agree with the local caches, and all indices are 4-aligned and in
range. -/
structure IdxInv (s : Ring) : Prop where
  hB4 : s.bufferLen % 4 = 0
  hB : 24 ≤ s.bufferLen
  rdEq : s.rdIdx = s.recvRdIdx
  wrEq : s.wrIdx = s.sendWrIdx
  hrd : s.recvRdIdx < s.bufferLen
  hrd4 : s.recvRdIdx % 4 = 0
  hwr : s.sendWrIdx < s.bufferLen
  hwr4 : s.sendWrIdx % 4 = 0

/-- The data area holds a well-formed frame for message `m` whose header
starts at ring offset `p % B`: the two big-endian length bytes, and the
payload bytes from offset `p + 4` on, all taken modulo `B`.  (The two
reserved header bytes and the padding bytes are unconstrained; the code
never reads them.) -/
def holdsMsg (d : Nat → Nat) (B p : Nat) (m : List Nat) : Prop :=
  d (p % B) = m.length / 256 ∧
  d ((p + 1) % B) = m.length % 256 ∧
  ∀ i < m.length, d ((p + 4 + i) % B) = m.getD i 0

/-- The data area holds the frames of the messages of `q`, laid out
consecutively from ring offset `p`. -/
def holdsQueue (d : Nat → Nat) (B : Nat) : Nat → List (List Nat) → Prop
  | _, [] => True
  | p, m :: q => holdsMsg d B p m ∧ holdsQueue d B (p + frameLen m) q

/-- Full invariant of one sequentially driven direction, refined by the
queue `q` of pending messages: indices are well formed, the write index
sits `queueLen q` bytes past the read index, the frames of `q` are laid
out there, the load leaves the mandatory free byte, and every queued
message fits a `u16` length field. -/
structure Inv (s : Ring) (q : List (List Nat)) : Prop where
  idx : IdxInv s
  hwrq : s.sendWrIdx = (s.recvRdIdx + queueLen q) % s.bufferLen
  hq : holdsQueue s.data s.bufferLen s.recvRdIdx q
  hcap : queueLen q ≤ s.bufferLen - 1
  hmsg : ∀ m ∈ q, m.length ≤ 65535

/-! ## Byte-level helper lemmas -/

theorem upd_self (d : Nat → Nat) (i v : Nat) : upd d i v i = v := by
  simp [upd]

theorem upd_ne (d : Nat → Nat) {i x : Nat} (v : Nat) (h : x ≠ i) : upd d i v x = d x := by
  simp [upd, h]

theorem writeBytesAt_lt (bs : List Nat) : ∀ (d : Nat → Nat) (i x : Nat), x < i →
    writeBytesAt d i bs x = d x := by
  induction bs with
  | nil => intro d i x _; rfl
  | cons b bs ih =>
    intro d i x h
    show writeBytesAt (upd d i b) (i + 1) bs x = d x
    rw [ih _ _ _ (by omega)]
    exact upd_ne d b (by omega)

theorem writeBytesAt_ge (bs : List Nat) : ∀ (d : Nat → Nat) (i x : Nat),
    i + bs.length ≤ x → writeBytesAt d i bs x = d x := by
  induction bs with
  | nil => intro d i x _; rfl
  | cons b bs ih =>
    intro d i x h
    simp only [List.length_cons] at h
    show writeBytesAt (upd d i b) (i + 1) bs x = d x
    rw [ih _ _ _ (by omega)]
    exact upd_ne d b (by omega)

theorem writeBytesAt_get (bs : List Nat) : ∀ (d : Nat → Nat) (i j : Nat), j < bs.length →
    writeBytesAt d i bs (i + j) = bs.getD j 0 := by
  induction bs with
  | nil => intro d i j h; simp at h
  | cons b bs ih =>
    intro d i j h
    show writeBytesAt (upd d i b) (i + 1) bs (i + j) = (b :: bs).getD j 0
    match j with
    | 0 => rw [writeBytesAt_lt _ _ _ _ (by omega)]; simp [upd_self]
    | Nat.succ j =>
      simp only [List.length_cons] at h
      have : i + (j + 1) = (i + 1) + j := by omega
      rw [this, ih _ _ _ (by omega)]
      simp [List.getD_cons_succ]

theorem copyFrom_length (n : Nat) : ∀ (out : List Nat) (j : Nat) (d : Nat → Nat) (i : Nat),
    (copyFrom out j d i n).length = out.length := by
  induction n with
  | zero => intro out j d i; rfl
  | succ n ih =>
    intro out j d i
    show (copyFrom (out.set j (d i)) (j + 1) d (i + 1) n).length = out.length
    rw [ih, List.length_set]

theorem copyFrom_out (n : Nat) : ∀ (out : List Nat) (j : Nat) (d : Nat → Nat) (i x : Nat),
    x < j ∨ j + n ≤ x → (copyFrom out j d i n).getD x 0 = out.getD x 0 := by
  induction n with
  | zero => intro out j d i x _; rfl
  | succ n ih =>
    intro out j d i x h
    show (copyFrom (out.set j (d i)) (j + 1) d (i + 1) n).getD x 0 = out.getD x 0
    rw [ih _ _ _ _ _ (by omega)]
    have hx : x ≠ j := by omega
    simp [List.getD, List.getElem?_set_ne (Ne.symm hx)]

theorem copyFrom_get (n : Nat) : ∀ (out : List Nat) (j : Nat) (d : Nat → Nat) (i k : Nat),
    k < n → j + k < out.length →
    (copyFrom out j d i n).getD (j + k) 0 = d (i + k) := by
  induction n with
  | zero => intro out j d i k h _; omega
  | succ n ih =>
    intro out j d i k hk hlen
    show (copyFrom (out.set j (d i)) (j + 1) d (i + 1) n).getD (j + k) 0 = d (i + k)
    match k with
    | 0 =>
      rw [copyFrom_out _ _ _ _ _ _ (by omega)]
      simp only [Nat.add_zero]
      rw [List.getD_eq_getElem _ _ (by simpa using hlen)]
      simp [List.getElem_set_self]
    | Nat.succ k =>
      have h1 : j + (k + 1) = (j + 1) + k := by omega
      rw [h1, ih _ _ _ _ _ (by omega) (by rw [List.length_set]; omega)]
      congr 1
      omega

/-! ## Arithmetic helper lemmas -/

theorem paddedLen_mod4 (L : Nat) : paddedLen L % 4 = 0 := by
  simp only [paddedLen]; omega

theorem le_paddedLen (L : Nat) : L ≤ paddedLen L := by
  simp only [paddedLen]; omega

theorem paddedLen_le {L B : Nat} (hL : L ≤ B) (hB : B % 4 = 0) : paddedLen L ≤ B := by
  simp only [paddedLen]; omega

theorem frameLen_mod4 (m : List Nat) : frameLen m % 4 = 0 := by
  have := paddedLen_mod4 m.length
  simp only [frameLen]; omega

theorem frameLen_pos (m : List Nat) : 4 ≤ frameLen m := by
  simp only [frameLen]; omega

theorem queueLen_nil : queueLen [] = 0 := rfl

theorem queueLen_cons (m : List Nat) (q : List (List Nat)) :
    queueLen (m :: q) = frameLen m + queueLen q := by
  simp [queueLen]

theorem queueLen_append_one (q : List (List Nat)) (m : List Nat) :
    queueLen (q ++ [m]) = queueLen q + frameLen m := by
  simp [queueLen]

theorem queueLen_mod4 (q : List (List Nat)) : queueLen q % 4 = 0 := by
  induction q with
  | nil => rfl
  | cons m q ih =>
    have := frameLen_mod4 m
    rw [queueLen_cons]
    omega

theorem mod_sub_of_ge {a B : Nat} (h1 : B ≤ a) (h2 : a < 2 * B) : a % B = a - B := by
  rw [Nat.mod_eq_sub_mod h1, Nat.mod_eq_of_lt (by omega)]

/-- The free-space computation of `Sender::send`, given that the write
index is `n ≤ B - 1` frame bytes past the read index, yields `B - 1 - n`. -/
theorem free_of_queue {B rd wr n : Nat} (hB : 0 < B) (hrd : rd < B) (hn : n ≤ B - 1)
    (hwr : wr = (rd + n) % B) :
    (if rd > wr then rd - wr - 1 else rd + B - wr - 1) = B - 1 - n := by
  rcases Nat.lt_or_ge (rd + n) B with h | h
  · rw [hwr, Nat.mod_eq_of_lt h]
    split <;> omega
  · rw [hwr, mod_sub_of_ge h (by omega)]
    split <;> omega

theorem getD_take {l : List Nat} {n i : Nat} (h : i < n) :
    (l.take n).getD i 0 = l.getD i 0 := by
  simp [List.getD, List.getElem?_take, h]

theorem getD_drop (l : List Nat) (n j : Nat) :
    (l.drop n).getD j 0 = l.getD (n + j) 0 := by
  simp [List.getD, List.getElem?_drop]

/-- Characterisation of the data area after `Sender::send`'s writes: the
two header length bytes land at offsets `wr` and `wr + 1`, the payload
byte `i` at ring offset `(wr + 4 + i) % B`, and every ring offset at
distance `k ∈ [4 + len, B)` from `wr` keeps its old value. -/
theorem sendData_spec (d : Nat → Nat) (B wr : Nat) (m : List Nat)
    (hB4 : B % 4 = 0) (hwr : wr < B) (hwr4 : wr % 4 = 0)
    (hfit : paddedLen m.length + 4 ≤ B - 1) :
    sendData d B wr m wr = m.length % 65536 / 256 ∧
    sendData d B wr m (wr + 1) = m.length % 65536 % 256 ∧
    (∀ i < m.length, sendData d B wr m ((wr + 4 + i) % B) = m.getD i 0) ∧
    (∀ k, 4 + m.length ≤ k → k < B → sendData d B wr m ((wr + k) % B) = d ((wr + k) % B)) := by
  have hp4 := paddedLen_mod4 m.length
  have hLp := le_paddedLen m.length
  have hL : m.length ≤ B - 8 := by omega
  have hwrB : wr ≤ B - 4 := by omega
  have hBpos : 0 < B := by omega
  set hdr := m.length % 65536 with hhdr
  set d1 := upd (upd d wr (hdr / 256)) (wr + 1) (hdr % 256) with hd1
  have d1_wr : d1 wr = hdr / 256 := by
    rw [hd1, upd_ne _ _ (by omega), upd_self]
  have d1_wr1 : d1 (wr + 1) = hdr % 256 := by rw [hd1, upd_self]
  have d1_lo : ∀ x, x ≠ wr → x ≠ wr + 1 → d1 x = d x := by
    intro x h1 h2
    rw [hd1, upd_ne _ _ h2, upd_ne _ _ h1]
  rcases Nat.lt_or_ge wr (B - 4) with hcase | hcase
  · -- the header does not sit at the very end: wr + 4 < B
    have hc : ¬ (wr + 4 ≥ B) := by omega
    rcases Nat.lt_or_ge (B - (wr + 4)) m.length with hw | hw
    · -- the payload wraps past the end of the data area
      have htk : (m.take (B - (wr + 4))).length = B - (wr + 4) := by
        rw [List.length_take]; omega
      have hdp : (m.drop (B - (wr + 4))).length = m.length - (B - (wr + 4)) := by
        rw [List.length_drop]
      have he : sendData d B wr m =
          writeBytesAt (writeBytesAt d1 (wr + 4) (m.take (B - (wr + 4)))) 0
            (m.drop (B - (wr + 4))) := by
        simp only [sendData, if_neg hc, ← hhdr, ← hd1, if_pos hw]
      have hwr8 : 8 ≤ wr := by omega
      refine ⟨?_, ?_, ?_, ?_⟩
      · rw [he, writeBytesAt_ge _ _ _ _ (by omega), writeBytesAt_lt _ _ _ _ (by omega), d1_wr]
      · rw [he, writeBytesAt_ge _ _ _ _ (by omega), writeBytesAt_lt _ _ _ _ (by omega), d1_wr1]
      · intro i hi
        rcases Nat.lt_or_ge i (B - (wr + 4)) with hit | hit
        · have hpos : (wr + 4 + i) % B = (wr + 4) + i := by
            rw [Nat.mod_eq_of_lt (by omega)]
          rw [he, hpos, writeBytesAt_ge _ _ _ _ (by omega),
            writeBytesAt_get _ _ _ _ (by omega)]
          exact getD_take hit
        · have hpos : (wr + 4 + i) % B = i - (B - (wr + 4)) := by
            rw [mod_sub_of_ge (by omega) (by omega)]; omega
          have hsplit : i - (B - (wr + 4)) = 0 + (i - (B - (wr + 4))) := by omega
          rw [he, hpos, hsplit, writeBytesAt_get _ _ _ _ (by omega), getD_drop]
          congr 1
          omega
      · intro k hk hkB
        have hpos : (wr + k) % B = wr + k - B := by
          rw [mod_sub_of_ge (by omega) (by omega)]
        rw [he, hpos, writeBytesAt_ge _ _ _ _ (by omega),
          writeBytesAt_lt _ _ _ _ (by omega), d1_lo _ (by omega) (by omega)]
    · -- the payload fits before the end of the data area
      have he : sendData d B wr m = writeBytesAt d1 (wr + 4) m := by
        simp only [sendData, if_neg hc, ← hhdr, ← hd1, if_neg (by omega : ¬ m.length > B - (wr + 4))]
      refine ⟨?_, ?_, ?_, ?_⟩
      · rw [he, writeBytesAt_lt _ _ _ _ (by omega), d1_wr]
      · rw [he, writeBytesAt_lt _ _ _ _ (by omega), d1_wr1]
      · intro i hi
        have hpos : (wr + 4 + i) % B = (wr + 4) + i := by
          rw [Nat.mod_eq_of_lt (by omega)]
        rw [he, hpos, writeBytesAt_get _ _ _ _ (by omega)]
      · intro k hk hkB
        rcases Nat.lt_or_ge (wr + k) B with h2 | h2
        · have hpos : (wr + k) % B = wr + k := Nat.mod_eq_of_lt h2
          rw [he, hpos, writeBytesAt_ge _ _ _ _ (by omega),
            d1_lo _ (by omega) (by omega)]
        · have hpos : (wr + k) % B = wr + k - B := by
            rw [mod_sub_of_ge (by omega) (by omega)]
          rw [he, hpos, writeBytesAt_lt _ _ _ _ (by omega),
            d1_lo _ (by omega) (by omega)]
  · -- the header sits in the last four bytes: wr = B - 4, payload from 0
    have hwr' : wr = B - 4 := by omega
    have hc : wr + 4 ≥ B := by omega
    have he : sendData d B wr m = writeBytesAt d1 0 m := by
      simp only [sendData, if_pos hc, ← hhdr, ← hd1, Nat.sub_zero,
        if_neg (by omega : ¬ m.length > B)]
    refine ⟨?_, ?_, ?_, ?_⟩
    · rw [he, writeBytesAt_ge _ _ _ _ (by omega), d1_wr]
    · rw [he, writeBytesAt_ge _ _ _ _ (by omega), d1_wr1]
    · intro i hi
      have hpos : (wr + 4 + i) % B = i := by
        have : wr + 4 + i = B + i := by omega
        rw [this, Nat.add_mod_left, Nat.mod_eq_of_lt (by omega)]
      rw [he, hpos]
      have hget : writeBytesAt d1 0 m (0 + i) = m.getD i 0 :=
        writeBytesAt_get _ _ _ _ (by omega)
      simpa using hget
    · intro k hk hkB
      have hpos : (wr + k) % B = k - 4 := by
        rw [mod_sub_of_ge (by omega) (by omega)]; omega
      rw [he, hpos, writeBytesAt_ge _ _ _ _ (by omega),
        d1_lo _ (by omega) (by omega)]

/-! ## Receive-copy characterisation -/

theorem recvCopy_length (out : List Nat) (d : Nat → Nat) (B rd1 L : Nat) :
    (recvCopy out d B rd1 L).length = out.length := by
  simp only [recvCopy]
  split
  · rw [copyFrom_length, copyFrom_length]
  · rw [copyFrom_length]

/-- Positions at or past `L` of the caller's buffer keep their old value. -/
theorem recvCopy_out (out : List Nat) (d : Nat → Nat) (B rd1 L : Nat) :
    ∀ x, L ≤ x → (recvCopy out d B rd1 L).getD x 0 = out.getD x 0 := by
  intro x hx
  simp only [recvCopy]
  split
  · rw [copyFrom_out _ _ _ _ _ _ (by omega), copyFrom_out _ _ _ _ _ _ (by omega)]
  · rw [copyFrom_out _ _ _ _ _ _ (by omega)]

/-- Buffer position `i < L` receives ring byte `(rd1 + i) % B`. -/
theorem recvCopy_get (out : List Nat) (d : Nat → Nat) (B rd1 L : Nat)
    (hrd1 : rd1 < B) (hL : L ≤ out.length) (hLB : L ≤ B) :
    ∀ i < L, (recvCopy out d B rd1 L).getD i 0 = d ((rd1 + i) % B) := by
  intro i hi
  simp only [recvCopy]
  split
  · rename_i hw
    rcases Nat.lt_or_ge i (B - rd1) with hit | hit
    · have hpos : (rd1 + i) % B = rd1 + i := Nat.mod_eq_of_lt (by omega)
      rw [hpos, copyFrom_out _ _ _ _ _ _ (by omega)]
      have hget : (copyFrom out 0 d rd1 (B - rd1)).getD (0 + i) 0 = d (rd1 + i) :=
        copyFrom_get _ _ _ _ _ _ (by omega) (by omega)
      simpa using hget
    · have hpos : (rd1 + i) % B = i - (B - rd1) := by
        rw [mod_sub_of_ge (by omega) (by omega)]; omega
      have hsplit : i = (B - rd1) + (i - (B - rd1)) := by omega
      rw [hpos, hsplit, copyFrom_get _ _ _ _ _ _ (by omega)
        (by rw [copyFrom_length]; omega)]
      congr 1
      omega
  · rename_i hw
    have hpos : (rd1 + i) % B = rd1 + i := Nat.mod_eq_of_lt (by omega)
    rw [hpos]
    have hget : (copyFrom out 0 d rd1 L).getD (0 + i) 0 = d (rd1 + i) :=
      copyFrom_get _ _ _ _ _ _ (by omega) (by omega)
    simpa using hget

/-! ## Queue-layout lemmas -/

theorem holdsMsg_congr {d d2 : Nat → Nat} {B p : Nat} {m : List Nat}
    (hsame : ∀ k < frameLen m, d2 ((p + k) % B) = d ((p + k) % B))
    (h : holdsMsg d B p m) : holdsMsg d2 B p m := by
  obtain ⟨h0, h1, h2⟩ := h
  have hfp := frameLen_pos m
  have hLp := le_paddedLen m.length
  refine ⟨?_, ?_, ?_⟩
  · have := hsame 0 (by omega)
    simpa using this |>.trans (by simpa using h0)
  · exact (hsame 1 (by omega)).trans h1
  · intro i hi
    have hk : 4 + i < frameLen m := by simp only [frameLen]; omega
    have := hsame (4 + i) hk
    rw [show p + (4 + i) = p + 4 + i by omega] at this
    exact this.trans (h2 i hi)

/-- `holdsMsg` depends on the start offset only modulo `B`. -/
theorem holdsMsg_of_modeq {d : Nat → Nat} {B p p2 : Nat} {m : List Nat}
    (hp : p % B = p2 % B) (h : holdsMsg d B p m) : holdsMsg d B p2 m := by
  obtain ⟨h0, h1, h2⟩ := h
  have key : ∀ k : Nat, (p2 + k) % B = (p + k) % B := by
    intro k
    rw [Nat.add_mod, ← hp, ← Nat.add_mod]
  refine ⟨?_, ?_, ?_⟩
  · have := key 0
    simp only [Nat.add_zero] at this
    rw [this]; exact h0
  · rw [key 1]; exact h1
  · intro i hi
    have := key (4 + i)
    rw [show p2 + (4 + i) = p2 + 4 + i by omega, show p + (4 + i) = p + 4 + i by omega] at this
    rw [this]; exact h2 i hi

theorem holdsQueue_congr {d d2 : Nat → Nat} {B : Nat} {q : List (List Nat)} :
    ∀ {p : Nat}, (∀ k < queueLen q, d2 ((p + k) % B) = d ((p + k) % B)) →
    holdsQueue d B p q → holdsQueue d2 B p q := by
  induction q with
  | nil => intro p _ _; trivial
  | cons m q ih =>
    intro p hsame h
    obtain ⟨hm, hq⟩ := h
    have hq4 : queueLen (m :: q) = frameLen m + queueLen q := queueLen_cons m q
    refine ⟨holdsMsg_congr (fun k hk => hsame k (by omega)) hm, ?_⟩
    refine ih (fun k hk => ?_) hq
    have := hsame (frameLen m + k) (by omega)
    rw [show p + (frameLen m + k) = p + frameLen m + k by omega] at this
    exact this

theorem holdsQueue_of_modeq {d : Nat → Nat} {B : Nat} {q : List (List Nat)} :
    ∀ {p p2 : Nat}, p % B = p2 % B → holdsQueue d B p q → holdsQueue d B p2 q := by
  induction q with
  | nil => intro p p2 _ _; trivial
  | cons m q ih =>
    intro p p2 hp h
    obtain ⟨hm, hq⟩ := h
    refine ⟨holdsMsg_of_modeq hp hm, ?_⟩
    refine ih ?_ hq
    rw [Nat.add_mod, Nat.add_mod p2, hp]

theorem holdsQueue_append_one (d : Nat → Nat) (B : Nat) (q : List (List Nat))
    (m : List Nat) : ∀ p, holdsQueue d B p (q ++ [m]) ↔
      (holdsQueue d B p q ∧ holdsMsg d B (p + queueLen q) m) := by
  induction q with
  | nil =>
    intro p
    simp only [List.nil_append, holdsQueue, queueLen_nil, Nat.add_zero]
    tauto
  | cons m2 q ih =>
    intro p
    simp only [List.cons_append, holdsQueue, queueLen_cons]
    constructor
    · rintro ⟨hm2, hrest⟩
      obtain ⟨hq, hm⟩ := (ih (p + frameLen m2)).1 hrest
      refine ⟨⟨hm2, hq⟩, ?_⟩
      rw [show p + (frameLen m2 + queueLen q) = p + frameLen m2 + queueLen q by omega]
      exact hm
    · rintro ⟨⟨hm2, hq⟩, hm⟩
      refine ⟨hm2, (ih (p + frameLen m2)).2 ⟨hq, ?_⟩⟩
      rw [show p + frameLen m2 + queueLen q = p + (frameLen m2 + queueLen q) by omega]
      exact hm

/-! ## Operation-level lemmas -/

theorem step4_eq {B idx : Nat} (hB4 : B % 4 = 0) (_hBpos : 0 < B) (h : idx < B)
    (h4 : idx % 4 = 0) :
    (if idx + 4 ≥ B then 0 else idx + 4) = (idx + 4) % B := by
  split
  · rename_i hc
    have h2 : idx + 4 = B := by omega
    rw [h2, Nat.mod_self]
  · rename_i hc
    rw [Nat.mod_eq_of_lt (by omega)]

theorem wrapSub_eq {B a : Nat} (h : a < 2 * B) (_hBpos : 0 < B) :
    (if a ≥ B then a - B else a) = a % B := by
  split
  · rename_i hc; rw [mod_sub_of_ge hc h]
  · rename_i hc; rw [Nat.mod_eq_of_lt (by omega)]

theorem wr_ne_rd {B rd n : Nat} (hB : 0 < B) (hrd : rd < B) (hn1 : 0 < n)
    (hn2 : n ≤ B - 1) : (rd + n) % B ≠ rd := by
  rcases Nat.lt_or_ge (rd + n) B with h | h
  · rw [Nat.mod_eq_of_lt h]; omega
  · rw [mod_sub_of_ge h (by omega)]; omega

/-- `Sender::send` fails exactly by returning early, untouched state. -/
theorem send_fail (s : Ring) (msg : List Nat)
    (h : (if s.rdIdx > s.sendWrIdx then s.rdIdx - s.sendWrIdx - 1
          else s.rdIdx + s.bufferLen - s.sendWrIdx - 1) < paddedLen msg.length + 4) :
    send s msg = (s, some SendError.InsufficientCapacity) := by
  simp only [send, if_pos h]

/-- A successful `Sender::send` appends the message to the pending queue:
it returns no error, preserves the invariant with `q ++ [msg]`, advances
the published write index by `frameLen msg`, and fires the notifier once. -/
theorem send_ok (s : Ring) (q : List (List Nat)) (msg : List Nat) (inv : Inv s q)
    (hm : msg.length ≤ 65535) (hfit : queueLen q + frameLen msg ≤ s.bufferLen - 1) :
    (send s msg).2 = none ∧
    Inv (send s msg).1 (q ++ [msg]) ∧
    (send s msg).1.bufferLen = s.bufferLen ∧
    (send s msg).1.rdIdx = s.rdIdx ∧
    (send s msg).1.recvRdIdx = s.recvRdIdx ∧
    (send s msg).1.sendWrIdx = (s.sendWrIdx + frameLen msg) % s.bufferLen ∧
    (send s msg).1.wrIdx = (s.sendWrIdx + frameLen msg) % s.bufferLen ∧
    (send s msg).1.notifyCount = s.notifyCount + 1 := by
  obtain ⟨idx, hwrq, hq, hcap, hmsg⟩ := inv
  obtain ⟨hB4, hB, rdEq, wrEq, hrd, hrd4, hwr, hwr4⟩ := idx
  have hBpos : 0 < s.bufferLen := by omega
  have hfp := frameLen_pos msg
  have hf4 := frameLen_mod4 msg
  have hq4 := queueLen_mod4 q
  have hpl := le_paddedLen msg.length
  have hflen : frameLen msg = 4 + paddedLen msg.length := rfl
  have hfree : (if s.rdIdx > s.sendWrIdx then s.rdIdx - s.sendWrIdx - 1
      else s.rdIdx + s.bufferLen - s.sendWrIdx - 1) = s.bufferLen - 1 - queueLen q := by
    rw [rdEq]
    exact free_of_queue hBpos hrd (by omega) (rdEq ▸ hwrq)
  have hcond : ¬ ((if s.rdIdx > s.sendWrIdx then s.rdIdx - s.sendWrIdx - 1
      else s.rdIdx + s.bufferLen - s.sendWrIdx - 1) < paddedLen msg.length + 4) := by
    rw [hfree]; omega
  have hsend : send s msg = ({ s with
      data := sendData s.data s.bufferLen s.sendWrIdx msg,
      sendWrIdx := (s.sendWrIdx + frameLen msg) % s.bufferLen,
      wrIdx := (s.sendWrIdx + frameLen msg) % s.bufferLen,
      notifyCount := s.notifyCount + 1 }, none) := by
    simp only [send, if_neg hcond]
    have h1 : (if s.sendWrIdx + 4 ≥ s.bufferLen then 0 else s.sendWrIdx + 4)
        = (s.sendWrIdx + 4) % s.bufferLen := step4_eq hB4 hBpos hwr hwr4
    rw [h1]
    have h2 : (s.sendWrIdx + 4) % s.bufferLen < s.bufferLen := Nat.mod_lt _ hBpos
    have h3 : (if (s.sendWrIdx + 4) % s.bufferLen + paddedLen msg.length ≥ s.bufferLen
        then (s.sendWrIdx + 4) % s.bufferLen + paddedLen msg.length - s.bufferLen
        else (s.sendWrIdx + 4) % s.bufferLen + paddedLen msg.length)
        = ((s.sendWrIdx + 4) % s.bufferLen + paddedLen msg.length) % s.bufferLen :=
      wrapSub_eq (by omega) hBpos
    rw [h3, Nat.mod_add_mod,
      show s.sendWrIdx + 4 + paddedLen msg.length = s.sendWrIdx + frameLen msg by
        rw [hflen]; omega]
  have hspec := sendData_spec s.data s.bufferLen s.sendWrIdx msg hB4 hwr hwr4 (by omega)
  obtain ⟨hs0, hs1, hsp, hsu⟩ := hspec
  rw [hsend]
  have hd4B : (4 : Nat) ∣ s.bufferLen := Nat.dvd_of_mod_eq_zero hB4
  refine ⟨rfl, ?_, rfl, rfl, rfl, rfl, rfl, rfl⟩
  refine ⟨⟨hB4, hB, rdEq, rfl, hrd, hrd4, Nat.mod_lt _ hBpos, ?_⟩, ?_, ?_, ?_, ?_⟩
  · rw [Nat.mod_mod_of_dvd _ hd4B]
    omega
  · -- the write index sits `queueLen (q ++ [msg])` past the read index
    show (s.sendWrIdx + frameLen msg) % s.bufferLen
      = (s.recvRdIdx + queueLen (q ++ [msg])) % s.bufferLen
    rw [hwrq, Nat.mod_add_mod, queueLen_append_one]
    congr 1
    omega
  · -- layout: old frames untouched, new frame written at the write index
    show holdsQueue (sendData s.data s.bufferLen s.sendWrIdx msg) s.bufferLen
      s.recvRdIdx (q ++ [msg])
    rw [holdsQueue_append_one]
    constructor
    · refine holdsQueue_congr (fun k hk => ?_) hq
      have h1 : (s.recvRdIdx + k) % s.bufferLen
          = (s.sendWrIdx + (s.bufferLen - queueLen q + k)) % s.bufferLen := by
        rw [hwrq, Nat.mod_add_mod,
          show s.recvRdIdx + queueLen q + (s.bufferLen - queueLen q + k)
            = s.recvRdIdx + k + s.bufferLen by omega, Nat.add_mod_right]
      rw [h1]
      exact hsu (s.bufferLen - queueLen q + k) (by omega) (by omega)
    · -- the new message, starting at `recvRdIdx + queueLen q ≡ sendWrIdx` -/
      have hmod : s.sendWrIdx % s.bufferLen = (s.recvRdIdx + queueLen q) % s.bufferLen := by
        rw [hwrq, Nat.mod_mod_of_dvd _ dvd_rfl]
      refine holdsMsg_of_modeq hmod ?_
      have hmm : msg.length % 65536 = msg.length := Nat.mod_eq_of_lt (by omega)
      refine ⟨?_, ?_, ?_⟩
      · rw [Nat.mod_eq_of_lt hwr, hs0, hmm]
      · rw [Nat.mod_eq_of_lt (by omega : s.sendWrIdx + 1 < s.bufferLen), hs1, hmm]
      · exact hsp
  · show queueLen (q ++ [msg]) ≤ s.bufferLen - 1
    rw [queueLen_append_one]
    omega
  · intro m hmem
    rcases List.mem_append.1 hmem with h | h
    · exact hmsg m h
    · rw [List.mem_singleton.1 h]; exact hm

/-- On an empty queue, `try_recv` reports `Empty` and changes nothing. -/
theorem tryRecv_empty (s : Ring) (out : List Nat) (inv : Inv s []) :
    tryRecv s out = (s, out, RecvResult.err RecvError.Empty) := by
  have heq : s.wrIdx = s.recvRdIdx := by
    rw [inv.idx.wrEq, inv.hwrq, queueLen_nil, Nat.add_zero,
      Nat.mod_eq_of_lt inv.idx.hrd]
  simp only [tryRecv, if_pos heq]

theorem take_eq_of_getD {a b : List Nat} (n : Nat) (hn : n ≤ a.length)
    (hb : b.length = n) (h : ∀ x < n, a.getD x 0 = b.getD x 0) : a.take n = b := by
  apply List.ext_getElem?
  intro i
  rcases Nat.lt_or_ge i n with hx | hx
  · have hia : i < a.length := by omega
    have hib : i < b.length := by omega
    rw [List.getElem?_take, if_pos hx, List.getElem?_eq_getElem hia,
      List.getElem?_eq_getElem hib]
    have h2 := h i hx
    rw [List.getD_eq_getElem a 0 hia, List.getD_eq_getElem b 0 hib] at h2
    exact congrArg some h2
  · rw [List.getElem?_take, if_neg (by omega), Eq.comm]
    exact List.getElem?_eq_none (by omega)

theorem drop_eq_of_getD {a b : List Nat} (n : Nat) (hlen : a.length = b.length)
    (h : ∀ x, n ≤ x → a.getD x 0 = b.getD x 0) : a.drop n = b.drop n := by
  apply List.ext_getElem?
  intro i
  rw [List.getElem?_drop, List.getElem?_drop]
  rcases Nat.lt_or_ge (n + i) a.length with hx | hx
  · have hib : n + i < b.length := by omega
    rw [List.getElem?_eq_getElem hx, List.getElem?_eq_getElem hib]
    have h2 := h (n + i) (by omega)
    rw [List.getD_eq_getElem a 0 hx, List.getD_eq_getElem b 0 hib] at h2
    exact congrArg some h2
  · rw [List.getElem?_eq_none (by omega), List.getElem?_eq_none (by omega)]

/-- A successful `Receiver::try_recv` pops the head message: it returns the
head's length, copies exactly its bytes into the front of `out`, advances
and publishes the read index by `frameLen m`, and preserves the invariant
with the tail queue. -/
theorem tryRecv_ok (s : Ring) (q : List (List Nat)) (m : List Nat) (out : List Nat)
    (inv : Inv s (m :: q)) (hout : m.length ≤ out.length) :
    (tryRecv s out).2.2 = RecvResult.ok m.length ∧
    (tryRecv s out).2.1.take m.length = m ∧
    (tryRecv s out).2.1.drop m.length = out.drop m.length ∧
    (tryRecv s out).2.1.length = out.length ∧
    Inv (tryRecv s out).1 q ∧
    (tryRecv s out).1.bufferLen = s.bufferLen ∧
    (tryRecv s out).1.wrIdx = s.wrIdx ∧
    (tryRecv s out).1.sendWrIdx = s.sendWrIdx ∧
    (tryRecv s out).1.notifyCount = s.notifyCount ∧
    (tryRecv s out).1.data = s.data ∧
    (tryRecv s out).1.recvRdIdx = (s.recvRdIdx + frameLen m) % s.bufferLen ∧
    (tryRecv s out).1.rdIdx = (s.recvRdIdx + frameLen m) % s.bufferLen := by
  obtain ⟨idx, hwrq, hq, hcap, hmsg⟩ := inv
  obtain ⟨hB4, hB, rdEq, wrEq, hrd, hrd4, hwr, hwr4⟩ := idx
  obtain ⟨hm0, hq'⟩ := hq
  have hBpos : 0 < s.bufferLen := by omega
  have hfp := frameLen_pos m
  have hf4 := frameLen_mod4 m
  have hq4 := queueLen_mod4 q
  have hpl := le_paddedLen m.length
  have hflen : frameLen m = 4 + paddedLen m.length := rfl
  have hqc : frameLen m + queueLen q ≤ s.bufferLen - 1 := by
    have h2 := hcap; rw [queueLen_cons] at h2; exact h2
  have hrdB : s.recvRdIdx ≤ s.bufferLen - 4 := by omega
  have hlenB : m.length ≤ s.bufferLen - 5 := by omega
  have h0 : s.data s.recvRdIdx = m.length / 256 := by
    have h2 := hm0.1
    rwa [Nat.mod_eq_of_lt hrd] at h2
  have h1 : s.data (s.recvRdIdx + 1) = m.length % 256 := by
    have h2 := hm0.2.1
    rwa [Nat.mod_eq_of_lt (by omega)] at h2
  have hml : s.data s.recvRdIdx * 256 + s.data (s.recvRdIdx + 1) = m.length := by
    rw [h0, h1]; omega
  have hne : ¬ (s.wrIdx = s.recvRdIdx) := by
    rw [wrEq, hwrq]
    exact wr_ne_rd hBpos hrd (by rw [queueLen_cons]; omega) (by omega)
  have htr : tryRecv s out = ({ s with
      recvRdIdx := (s.recvRdIdx + frameLen m) % s.bufferLen,
      rdIdx := (s.recvRdIdx + frameLen m) % s.bufferLen },
      recvCopy out s.data s.bufferLen ((s.recvRdIdx + 4) % s.bufferLen) m.length,
      RecvResult.ok m.length) := by
    simp only [tryRecv, if_neg hne, hml]
    rw [if_neg (by omega : ¬ m.length > out.length),
      if_neg (by omega : ¬ m.length > s.bufferLen)]
    rw [step4_eq hB4 hBpos hrd hrd4]
    have h2 : (s.recvRdIdx + 4) % s.bufferLen < s.bufferLen := Nat.mod_lt _ hBpos
    have h3 : (if (s.recvRdIdx + 4) % s.bufferLen + paddedLen m.length ≥ s.bufferLen
        then (s.recvRdIdx + 4) % s.bufferLen + paddedLen m.length - s.bufferLen
        else (s.recvRdIdx + 4) % s.bufferLen + paddedLen m.length)
        = ((s.recvRdIdx + 4) % s.bufferLen + paddedLen m.length) % s.bufferLen :=
      wrapSub_eq (by omega) hBpos
    rw [h3, Nat.mod_add_mod,
      show s.recvRdIdx + 4 + paddedLen m.length = s.recvRdIdx + frameLen m by
        rw [hflen]; omega]
  have hrd1lt : (s.recvRdIdx + 4) % s.bufferLen < s.bufferLen := Nat.mod_lt _ hBpos
  have hget := recvCopy_get out s.data s.bufferLen ((s.recvRdIdx + 4) % s.bufferLen)
    m.length hrd1lt hout (by omega)
  have hbytes : ∀ i < m.length,
      (recvCopy out s.data s.bufferLen ((s.recvRdIdx + 4) % s.bufferLen)
        m.length).getD i 0 = m.getD i 0 := by
    intro i hi
    rw [hget i hi, Nat.mod_add_mod]
    exact hm0.2.2 i hi
  have hclen := recvCopy_length out s.data s.bufferLen
    ((s.recvRdIdx + 4) % s.bufferLen) m.length
  have hcout := recvCopy_out out s.data s.bufferLen
    ((s.recvRdIdx + 4) % s.bufferLen) m.length
  have hd4B : (4 : Nat) ∣ s.bufferLen := Nat.dvd_of_mod_eq_zero hB4
  rw [htr]
  refine ⟨rfl, ?_, ?_, hclen, ?_, rfl, rfl, rfl, rfl, rfl, rfl, rfl⟩
  · show (recvCopy out s.data s.bufferLen ((s.recvRdIdx + 4) % s.bufferLen)
      m.length).take m.length = m
    exact take_eq_of_getD m.length (by omega) rfl hbytes
  · show (recvCopy out s.data s.bufferLen ((s.recvRdIdx + 4) % s.bufferLen)
      m.length).drop m.length = out.drop m.length
    exact drop_eq_of_getD m.length hclen hcout
  · refine ⟨⟨hB4, hB, rfl, wrEq, Nat.mod_lt _ hBpos, ?_, hwr, hwr4⟩, ?_, ?_, ?_, ?_⟩
    · rw [Nat.mod_mod_of_dvd _ hd4B]
      omega
    · show s.sendWrIdx
        = ((s.recvRdIdx + frameLen m) % s.bufferLen + queueLen q) % s.bufferLen
      rw [Nat.mod_add_mod, hwrq, queueLen_cons]
      congr 1
      omega
    · show holdsQueue s.data s.bufferLen
        ((s.recvRdIdx + frameLen m) % s.bufferLen) q
      exact holdsQueue_of_modeq (Nat.mod_mod_of_dvd _ dvd_rfl).symm hq'
    · show queueLen q ≤ s.bufferLen - 1
      omega
    · intro m2 hm2
      exact hmsg m2 (List.mem_cons_of_mem _ hm2)

/-- When the head message is longer than the caller's buffer, `try_recv`
reports `MessageTooBig` and changes nothing. -/
theorem tryRecv_too_big (s : Ring) (q : List (List Nat)) (m : List Nat) (out : List Nat)
    (inv : Inv s (m :: q)) (hout : out.length < m.length) :
    tryRecv s out = (s, out, RecvResult.err RecvError.MessageTooBig) := by
  obtain ⟨idx, hwrq, hq, hcap, hmsg⟩ := inv
  obtain ⟨hB4, hB, rdEq, wrEq, hrd, hrd4, hwr, hwr4⟩ := idx
  obtain ⟨hm0, hq'⟩ := hq
  have hBpos : 0 < s.bufferLen := by omega
  have h0 : s.data s.recvRdIdx = m.length / 256 := by
    have h2 := hm0.1
    rwa [Nat.mod_eq_of_lt hrd] at h2
  have h1 : s.data (s.recvRdIdx + 1) = m.length % 256 := by
    have h2 := hm0.2.1
    rwa [Nat.mod_eq_of_lt (by omega)] at h2
  have hml : s.data s.recvRdIdx * 256 + s.data (s.recvRdIdx + 1) = m.length := by
    rw [h0, h1]; omega
  have hne : ¬ (s.wrIdx = s.recvRdIdx) := by
    rw [wrEq, hwrq]
    refine wr_ne_rd hBpos hrd (by rw [queueLen_cons]; have := frameLen_pos m; omega)
      (by omega)
  simp only [tryRecv, if_neg hne, hml]
  rw [if_pos (by omega : m.length > out.length)]

/-- Every `try_recv` error path returns with the state and the caller's
buffer untouched. -/
theorem tryRecv_err (s : Ring) (out : List Nat) (e : RecvError)
    (h : (tryRecv s out).2.2 = RecvResult.err e) :
    (tryRecv s out).1 = s ∧ (tryRecv s out).2.1 = out := by
  by_cases h1 : s.wrIdx = s.recvRdIdx
  · simp only [tryRecv, if_pos h1]
    exact ⟨trivial, trivial⟩
  · by_cases h2 : s.data s.recvRdIdx * 256 + s.data (s.recvRdIdx + 1) > out.length
    · simp only [tryRecv, if_neg h1, if_pos h2]
      exact ⟨trivial, trivial⟩
    · by_cases h3 : s.data s.recvRdIdx * 256 + s.data (s.recvRdIdx + 1) > s.bufferLen
      · simp only [tryRecv, if_neg h1, if_neg h2, if_pos h3]
        exact ⟨trivial, trivial⟩
      · simp only [tryRecv, if_neg h1, if_neg h2, if_neg h3] at h
        exact absurd h (by simp)

/-- Under the invariant, a successful `try_recv` can only have popped the
head of a non-empty queue, and the caller's buffer was large enough. -/
theorem tryRecv_ok_inv (s : Ring) (Q : List (List Nat)) (out : List Nat) (k : Nat)
    (inv : Inv s Q) (h : (tryRecv s out).2.2 = RecvResult.ok k) :
    ∃ m q, Q = m :: q ∧ k = m.length ∧ m.length ≤ out.length := by
  match Q with
  | [] =>
    rw [tryRecv_empty s out inv] at h
    exact absurd h (by simp)
  | m :: q =>
    rcases Nat.lt_or_ge out.length m.length with hx | hx
    · rw [tryRecv_too_big s q m out inv hx] at h
      exact absurd h (by simp)
    · have h2 := (tryRecv_ok s q m out inv hx).1
      rw [h2] at h
      exact ⟨m, q, rfl, by injection h.symm, hx⟩

/-! ## Trace-level lemmas -/

/-- The free-space expression of `Sender::send` under the invariant. -/
theorem free_formula (s : Ring) (q : List (List Nat)) (inv : Inv s q) :
    (if s.rdIdx > s.sendWrIdx then s.rdIdx - s.sendWrIdx - 1
     else s.rdIdx + s.bufferLen - s.sendWrIdx - 1) = s.bufferLen - 1 - queueLen q := by
  have hrd := inv.idx.hrd
  have hB := inv.idx.hB
  have hcap := inv.hcap
  rw [inv.idx.rdEq]
  exact free_of_queue (by omega) hrd (by omega) (inv.idx.rdEq ▸ inv.hwrq)

/-- An empty ring at any common index satisfies the invariant with the
empty queue. -/
theorem Inv_empty (B p : Nat) (d : Nat → Nat) (hB4 : B % 4 = 0) (hB : 24 ≤ B)
    (hp : p < B) (hp4 : p % 4 = 0) : Inv (emptyRingAt B p d) [] := by
  refine ⟨⟨hB4, hB, rfl, rfl, hp, hp4, hp, hp4⟩, ?_, trivial, ?_, ?_⟩
  · show p = (p + queueLen []) % B
    rw [queueLen_nil, Nat.add_zero, Nat.mod_eq_of_lt hp]
  · show queueLen [] ≤ (emptyRingAt B p d).bufferLen - 1
    rw [queueLen_nil]
    exact Nat.zero_le _
  · intro m hm
    exact absurd hm (List.not_mem_nil m)

theorem Inv_init (B : Nat) (d : Nat → Nat) (hB4 : B % 4 = 0) (hB : 24 ≤ B) :
    Inv (initRing B d) [] :=
  Inv_empty B 0 d hB4 hB (by omega) rfl

/-- A successful `send`, without further hypotheses: the shape of the
resulting state. -/
theorem send_ok_eq (s : Ring) (msg : List Nat)
    (hB4 : s.bufferLen % 4 = 0) (hBpos : 0 < s.bufferLen)
    (hwr : s.sendWrIdx < s.bufferLen) (hwr4 : s.sendWrIdx % 4 = 0)
    (hpml : paddedLen msg.length < s.bufferLen)
    (hc : ¬ ((if s.rdIdx > s.sendWrIdx then s.rdIdx - s.sendWrIdx - 1
        else s.rdIdx + s.bufferLen - s.sendWrIdx - 1) < paddedLen msg.length + 4)) :
    send s msg = ({ s with
      data := sendData s.data s.bufferLen s.sendWrIdx msg,
      sendWrIdx := (s.sendWrIdx + frameLen msg) % s.bufferLen,
      wrIdx := (s.sendWrIdx + frameLen msg) % s.bufferLen,
      notifyCount := s.notifyCount + 1 }, none) := by
  simp only [send, if_neg hc]
  rw [step4_eq hB4 hBpos hwr hwr4]
  have h2 : (s.sendWrIdx + 4) % s.bufferLen < s.bufferLen := Nat.mod_lt _ hBpos
  have h3 : (if (s.sendWrIdx + 4) % s.bufferLen + paddedLen msg.length ≥ s.bufferLen
      then (s.sendWrIdx + 4) % s.bufferLen + paddedLen msg.length - s.bufferLen
      else (s.sendWrIdx + 4) % s.bufferLen + paddedLen msg.length)
      = ((s.sendWrIdx + 4) % s.bufferLen + paddedLen msg.length) % s.bufferLen :=
    wrapSub_eq (by omega) hBpos
  rw [h3, Nat.mod_add_mod,
    show s.sendWrIdx + 4 + paddedLen msg.length = s.sendWrIdx + frameLen msg by
      show _ = s.sendWrIdx + (4 + paddedLen msg.length); omega]

/-- `send` preserves index well-formedness, whether it succeeds or not. -/
theorem send_idx (s : Ring) (msg : List Nat) (inv : IdxInv s) :
    IdxInv (send s msg).1 ∧ (send s msg).1.bufferLen = s.bufferLen := by
  obtain ⟨hB4, hB, rdEq, wrEq, hrd, hrd4, hwr, hwr4⟩ := inv
  have hBpos : 0 < s.bufferLen := by omega
  by_cases hc : (if s.rdIdx > s.sendWrIdx then s.rdIdx - s.sendWrIdx - 1
      else s.rdIdx + s.bufferLen - s.sendWrIdx - 1) < paddedLen msg.length + 4
  · rw [send_fail s msg hc]
    exact ⟨⟨hB4, hB, rdEq, wrEq, hrd, hrd4, hwr, hwr4⟩, rfl⟩
  · have hfree : (if s.rdIdx > s.sendWrIdx then s.rdIdx - s.sendWrIdx - 1
        else s.rdIdx + s.bufferLen - s.sendWrIdx - 1) ≤ s.bufferLen - 1 := by
      rw [rdEq]
      split <;> omega
    have hfit : paddedLen msg.length + 4 ≤ s.bufferLen - 1 := by omega
    rw [send_ok_eq s msg hB4 hBpos hwr hwr4 (by omega) hc]
    have hp4 := paddedLen_mod4 msg.length
    have hf4 := frameLen_mod4 msg
    have hd4B : (4 : Nat) ∣ s.bufferLen := Nat.dvd_of_mod_eq_zero hB4
    refine ⟨⟨hB4, hB, rdEq, rfl, hrd, hrd4, Nat.mod_lt _ hBpos, ?_⟩, rfl⟩
    rw [Nat.mod_mod_of_dvd _ hd4B]
    omega

/-- `try_recv` preserves index well-formedness on every path. -/
theorem tryRecv_idx (s : Ring) (out : List Nat) (inv : IdxInv s) :
    IdxInv (tryRecv s out).1 ∧ (tryRecv s out).1.bufferLen = s.bufferLen := by
  obtain ⟨hB4, hB, rdEq, wrEq, hrd, hrd4, hwr, hwr4⟩ := inv
  have hBpos : 0 < s.bufferLen := by omega
  by_cases h1 : s.wrIdx = s.recvRdIdx
  · simp only [tryRecv, if_pos h1]
    exact ⟨⟨hB4, hB, rdEq, wrEq, hrd, hrd4, hwr, hwr4⟩, trivial⟩
  · by_cases h2 : s.data s.recvRdIdx * 256 + s.data (s.recvRdIdx + 1) > out.length
    · simp only [tryRecv, if_neg h1, if_pos h2]
      exact ⟨⟨hB4, hB, rdEq, wrEq, hrd, hrd4, hwr, hwr4⟩, trivial⟩
    · by_cases h3 : s.data s.recvRdIdx * 256 + s.data (s.recvRdIdx + 1) > s.bufferLen
      · simp only [tryRecv, if_neg h1, if_neg h2, if_pos h3]
        exact ⟨⟨hB4, hB, rdEq, wrEq, hrd, hrd4, hwr, hwr4⟩, trivial⟩
      · simp only [tryRecv, if_neg h1, if_neg h2, if_neg h3]
        have hr1 : (if s.recvRdIdx + 4 ≥ s.bufferLen then 0 else s.recvRdIdx + 4)
            < s.bufferLen
            ∧ (if s.recvRdIdx + 4 ≥ s.bufferLen then 0 else s.recvRdIdx + 4) % 4 = 0 := by
          split <;> omega
        have hLB : s.data s.recvRdIdx * 256 + s.data (s.recvRdIdx + 1) ≤ s.bufferLen := by
          omega
        have hpml : paddedLen (s.data s.recvRdIdx * 256 + s.data (s.recvRdIdx + 1))
            ≤ s.bufferLen := paddedLen_le hLB hB4
        have hp4 := paddedLen_mod4 (s.data s.recvRdIdx * 256 + s.data (s.recvRdIdx + 1))
        have hr3 : (if (if s.recvRdIdx + 4 ≥ s.bufferLen then 0 else s.recvRdIdx + 4)
              + paddedLen (s.data s.recvRdIdx * 256 + s.data (s.recvRdIdx + 1))
              ≥ s.bufferLen
            then (if s.recvRdIdx + 4 ≥ s.bufferLen then 0 else s.recvRdIdx + 4)
              + paddedLen (s.data s.recvRdIdx * 256 + s.data (s.recvRdIdx + 1))
              - s.bufferLen
            else (if s.recvRdIdx + 4 ≥ s.bufferLen then 0 else s.recvRdIdx + 4)
              + paddedLen (s.data s.recvRdIdx * 256 + s.data (s.recvRdIdx + 1)))
            < s.bufferLen
            ∧ (if (if s.recvRdIdx + 4 ≥ s.bufferLen then 0 else s.recvRdIdx + 4)
              + paddedLen (s.data s.recvRdIdx * 256 + s.data (s.recvRdIdx + 1))
              ≥ s.bufferLen
            then (if s.recvRdIdx + 4 ≥ s.bufferLen then 0 else s.recvRdIdx + 4)
              + paddedLen (s.data s.recvRdIdx * 256 + s.data (s.recvRdIdx + 1))
              - s.bufferLen
            else (if s.recvRdIdx + 4 ≥ s.bufferLen then 0 else s.recvRdIdx + 4)
              + paddedLen (s.data s.recvRdIdx * 256 + s.data (s.recvRdIdx + 1)))
            % 4 = 0 := by
          obtain ⟨ha, hb⟩ := hr1
          set r1 := if s.recvRdIdx + 4 ≥ s.bufferLen then 0 else s.recvRdIdx + 4
            with hr1def
          split <;> omega
        exact ⟨⟨hB4, hB, rfl, wrEq, hr3.1, hr3.2, hwr, hwr4⟩, trivial⟩

/-- Index well-formedness is preserved by any call sequence. -/
theorem run_idx (ops : List Op) : ∀ s : Ring, IdxInv s →
    IdxInv (run s ops).1 ∧ (run s ops).1.bufferLen = s.bufferLen := by
  induction ops with
  | nil => intro s inv; exact ⟨inv, rfl⟩
  | cons op ops ih =>
    intro s inv
    match op with
    | Op.send m =>
      simp only [run]
      obtain ⟨inv2, hbl⟩ := send_idx s m inv
      obtain ⟨inv3, hbl2⟩ := ih (send s m).1 inv2
      exact ⟨inv3, by rw [hbl2, hbl]⟩
    | Op.recv n =>
      simp only [run]
      obtain ⟨inv2, hbl⟩ := tryRecv_idx s (List.replicate n 0) inv
      obtain ⟨inv3, hbl2⟩ := ih (tryRecv s (List.replicate n 0)).1 inv2
      cases hres : (tryRecv s (List.replicate n 0)).2.2 with
      | ok k =>
        simp only [hres]
        exact ⟨inv3, by rw [hbl2, hbl]⟩
      | err e =>
        simp only [hres]
        exact ⟨inv3, by rw [hbl2, hbl]⟩

/-- FIFO refinement: running any call sequence from an invariant state in
which every `send` succeeded leaves some pending queue `q2`, and the
received messages followed by `q2` are exactly the initial queue followed
by the sent messages — i.e. messages are delivered in order. -/
theorem run_fifo (ops : List Op) : ∀ (s : Ring) (q : List (List Nat)), Inv s q →
    (∀ m, Op.send m ∈ ops → m.length ≤ 65535) →
    (run s ops).2.2 = true →
    ∃ q2, Inv (run s ops).1 q2 ∧ (run s ops).2.1 ++ q2 = q ++ sentOf ops := by
  induction ops with
  | nil =>
    intro s q inv _ _
    exact ⟨q, inv, by simp [run, sentOf]⟩
  | cons op ops ih =>
    intro s q inv hlen hflag
    match op with
    | Op.send m =>
      simp only [run, Bool.and_eq_true] at hflag ⊢
      obtain ⟨hsnone, hflag2⟩ := hflag
      have hnone : (send s m).2 = none := Option.isNone_iff_eq_none.1 hsnone
      have hm : m.length ≤ 65535 := hlen m (List.mem_cons_self _ _)
      have hfit : queueLen q + frameLen m ≤ s.bufferLen - 1 := by
        by_contra hcon
        have hfree := free_formula s q inv
        have hfl : frameLen m = 4 + paddedLen m.length := rfl
        have hfail := send_fail s m (by rw [hfree]; omega)
        rw [hfail] at hnone
        exact absurd hnone (by simp)
      obtain ⟨_, inv2, _⟩ := send_ok s q m inv hm hfit
      obtain ⟨q2, inv3, heq⟩ := ih (send s m).1 (q ++ [m]) inv2
        (fun m2 hm2 => hlen m2 (List.mem_cons_of_mem _ hm2)) hflag2
      refine ⟨q2, inv3, ?_⟩
      rw [heq]
      simp [sentOf, List.filterMap_cons]
    | Op.recv n =>
      simp only [run] at hflag ⊢
      cases hres : (tryRecv s (List.replicate n 0)).2.2 with
      | err e =>
        simp only [hres] at hflag ⊢
        obtain ⟨hs, _⟩ := tryRecv_err s (List.replicate n 0) e hres
        rw [hs] at hflag ⊢
        obtain ⟨q2, inv3, heq⟩ := ih s q inv
          (fun m2 hm2 => hlen m2 (List.mem_cons_of_mem _ hm2)) hflag
        refine ⟨q2, inv3, ?_⟩
        rw [heq]
        simp [sentOf, List.filterMap_cons]
      | ok k =>
        simp only [hres] at hflag ⊢
        obtain ⟨m, q', hQ, hk, hsz⟩ :=
          tryRecv_ok_inv s q (List.replicate n 0) k inv hres
        subst hQ
        obtain ⟨hok, htake, _, _, inv2, _⟩ :=
          tryRecv_ok s q' m (List.replicate n 0) inv hsz
        obtain ⟨q2, inv3, heq⟩ := ih (tryRecv s (List.replicate n 0)).1 q' inv2
          (fun m2 hm2 => hlen m2 (List.mem_cons_of_mem _ hm2)) hflag
        refine ⟨q2, inv3, ?_⟩
        subst hk
        rw [htake, List.cons_append, heq]
        simp [sentOf, List.filterMap_cons]

/-- Sending a list of messages that jointly fit never fails and loads
exactly those messages into the ring. -/
theorem run_sends_all (msgs : List (List Nat)) : ∀ (s : Ring) (q : List (List Nat)),
    Inv s q → (∀ m ∈ msgs, m.length ≤ 65535) →
    queueLen q + queueLen msgs ≤ s.bufferLen - 1 →
    (run s (msgs.map Op.send)).2.2 = true ∧
    Inv (run s (msgs.map Op.send)).1 (q ++ msgs) := by
  induction msgs with
  | nil =>
    intro s q inv _ _
    exact ⟨rfl, by simpa using inv⟩
  | cons m msgs ih =>
    intro s q inv hms hfit
    rw [queueLen_cons] at hfit
    have hm : m.length ≤ 65535 := hms m (List.mem_cons_self _ _)
    have hq0 : 0 ≤ queueLen msgs := Nat.zero_le _
    obtain ⟨hnone, inv2, hbl, _⟩ := send_ok s q m inv hm (by omega)
    simp only [List.map_cons, run, Bool.and_eq_true]
    obtain ⟨hflag, inv3⟩ := ih (send s m).1 (q ++ [m]) inv2
      (fun m2 hm2 => hms m2 (List.mem_cons_of_mem _ hm2))
      (by rw [queueLen_append_one, hbl]; omega)
    refine ⟨⟨by rw [hnone]; rfl, hflag⟩, ?_⟩
    have hassoc : (q ++ [m]) ++ msgs = q ++ (m :: msgs) := by simp
    rw [← hassoc]
    exact inv3

/-- One `send` followed by one `try_recv` on an empty ring at index 0, for
a message of arbitrary length: the header stores `len % 2 ^ 16` (the `as
u16` cast) and the receive returns that truncated length, with the first
`len % 2 ^ 16` payload bytes. -/
theorem send_recv_mod (B : Nat) (d : Nat → Nat) (m out : List Nat)
    (hB4 : B % 4 = 0) (hB : 24 ≤ B)
    (hfit : paddedLen m.length + 4 ≤ B - 1)
    (hout : m.length % 65536 ≤ out.length) :
    (send (emptyRingAt B 0 d) m).2 = none ∧
    (send (emptyRingAt B 0 d) m).1.data 0 = m.length % 65536 / 256 ∧
    (send (emptyRingAt B 0 d) m).1.data 1 = m.length % 65536 % 256 ∧
    (tryRecv (send (emptyRingAt B 0 d) m).1 out).2.2
      = RecvResult.ok (m.length % 65536) ∧
    ∀ i < m.length % 65536,
      (tryRecv (send (emptyRingAt B 0 d) m).1 out).2.1.getD i 0 = m.getD i 0 := by
  have hBpos : 0 < B := by omega
  have hpl := le_paddedLen m.length
  have hp4 := paddedLen_mod4 m.length
  have hL : m.length ≤ B - 5 := by omega
  have hL' : m.length % 65536 ≤ m.length := Nat.mod_le _ _
  have hfp := frameLen_pos m
  have hfB : frameLen m < B := by simp only [frameLen]; omega
  have inv0 := Inv_empty B 0 d hB4 hB (by omega) rfl
  have hfree := free_formula _ _ inv0
  have hc : ¬ ((if (emptyRingAt B 0 d).rdIdx > (emptyRingAt B 0 d).sendWrIdx
      then (emptyRingAt B 0 d).rdIdx - (emptyRingAt B 0 d).sendWrIdx - 1
      else (emptyRingAt B 0 d).rdIdx + (emptyRingAt B 0 d).bufferLen
        - (emptyRingAt B 0 d).sendWrIdx - 1)
      < paddedLen m.length + 4) := by
    rw [hfree, queueLen_nil]
    show ¬ (B - 1 - 0 < paddedLen m.length + 4)
    omega
  have hsend := send_ok_eq (emptyRingAt B 0 d) m hB4 hBpos hBpos rfl
    (show paddedLen m.length < B by omega) hc
  have hW : ((emptyRingAt B 0 d).sendWrIdx + frameLen m) % (emptyRingAt B 0 d).bufferLen
      = frameLen m := by
    show (0 + frameLen m) % B = frameLen m
    rw [Nat.zero_add, Nat.mod_eq_of_lt hfB]
  have hsend2 : send (emptyRingAt B 0 d) m
      = ({ bufferLen := B, rdIdx := 0, wrIdx := frameLen m, recvRdIdx := 0,
           sendWrIdx := frameLen m, data := sendData d B 0 m, notifyCount := 1 },
         none) := by
    rw [hsend, hW]
    rfl
  obtain ⟨hs0, hs1, hsp, _⟩ := sendData_spec d B 0 m hB4 hBpos rfl hfit
  have hml : m.length % 65536 / 256 * 256 + m.length % 65536 % 256
      = m.length % 65536 := by omega
  have htr2 : (tryRecv (send (emptyRingAt B 0 d) m).1 out).2.1
      = recvCopy out (sendData d B 0 m) B 4 (m.length % 65536)
      ∧ (tryRecv (send (emptyRingAt B 0 d) m).1 out).2.2
      = RecvResult.ok (m.length % 65536) := by
    rw [hsend2]
    simp only [tryRecv, Nat.zero_add]
    rw [if_neg (show ¬ (frameLen m = 0) by omega), hs0, hs1, hml,
      if_neg (show ¬ (m.length % 65536 > out.length) by omega),
      if_neg (show ¬ (m.length % 65536 > B) by omega),
      if_neg (show ¬ ((4 : Nat) ≥ B) by omega)]
    exact ⟨rfl, rfl⟩
  refine ⟨by rw [hsend2], by rw [hsend2]; exact hs0, by rw [hsend2]; exact hs1,
    htr2.2, ?_⟩
  intro i hi
  rw [htr2.1,
    recvCopy_get out (sendData d B 0 m) B 4 (m.length % 65536) (by omega) hout
      (by omega) i hi]
  have hpos : (4 + i) % B = (0 + 4 + i) % B := by
    rw [Nat.zero_add]
  rw [hpos]
  exact hsp i (by omega)

/-! ## Claim theorems -/

/-- C1 (amended: the message must also fit the header's `u16` length
field, `len(m) ≤ 65535`): single-message round trip at any offset — for
every `bufferLen B` that is a multiple of 4 with `B ≥ 24`, every message
`m` with `len(m) ≤ 65535` and `4 + paddedLen (len m) ≤ B - 1`, and every
4-aligned start index `p < B` with the ring empty at `p`, `send m`
succeeds, and a following `try_recv` into a buffer of at least `len m`
bytes returns `ok (len m)` with the first `len m` output bytes equal to
`m` — including when the frame wraps past the end of the data area back
to offset 0. -/
theorem claim_C1_roundtrip (B p : Nat) (d : Nat → Nat) (m out : List Nat)
    (hB4 : B % 4 = 0) (hB : 24 ≤ B) (hp : p < B) (hp4 : p % 4 = 0)
    (hm : m.length ≤ 65535) (hfit : 4 + paddedLen m.length ≤ B - 1)
    (hout : m.length ≤ out.length) :
    (send (emptyRingAt B p d) m).2 = none ∧
    (tryRecv (send (emptyRingAt B p d) m).1 out).2.2 = RecvResult.ok m.length ∧
    (tryRecv (send (emptyRingAt B p d) m).1 out).2.1.take m.length = m := by
  have inv0 := Inv_empty B p d hB4 hB hp hp4
  have hfit2 : queueLen [] + frameLen m ≤ (emptyRingAt B p d).bufferLen - 1 := by
    rw [queueLen_nil]
    show 0 + frameLen m ≤ B - 1
    simp only [frameLen]
    omega
  obtain ⟨hnone, inv1, _⟩ := send_ok (emptyRingAt B p d) [] m inv0 hm hfit2
  rw [List.nil_append] at inv1
  obtain ⟨hok, htake, _⟩ := tryRecv_ok (send (emptyRingAt B p d) m).1 [] m out inv1 hout
  exact ⟨hnone, hok, htake⟩

/-- Witness for C1: a concrete round trip whose frame wraps — start index
20 in a 24-byte ring, 5-byte message (frame bytes 20..31 wrap to 0..7). -/
theorem claim_C1_roundtrip_witness :
    ((24 : Nat) % 4 = 0 ∧ (24 : Nat) ≤ 24 ∧ (20 : Nat) < 24 ∧ (20 : Nat) % 4 = 0 ∧
      ([1, 2, 3, 4, 5] : List Nat).length ≤ 65535 ∧
      4 + paddedLen ([1, 2, 3, 4, 5] : List Nat).length ≤ 24 - 1 ∧
      ([1, 2, 3, 4, 5] : List Nat).length ≤ ([0, 0, 0, 0, 0] : List Nat).length) ∧
    ((send (emptyRingAt 24 20 (fun _ => 0)) [1, 2, 3, 4, 5]).2 = none ∧
      (tryRecv (send (emptyRingAt 24 20 (fun _ => 0)) [1, 2, 3, 4, 5]).1
        [0, 0, 0, 0, 0]).2.2 = RecvResult.ok ([1, 2, 3, 4, 5] : List Nat).length ∧
      (tryRecv (send (emptyRingAt 24 20 (fun _ => 0)) [1, 2, 3, 4, 5]).1
        [0, 0, 0, 0, 0]).2.1.take ([1, 2, 3, 4, 5] : List Nat).length
        = [1, 2, 3, 4, 5]) :=
  ⟨⟨by decide, by decide, by decide, by decide, by decide, by decide, by decide⟩,
   claim_C1_roundtrip 24 20 (fun _ => 0) [1, 2, 3, 4, 5] [0, 0, 0, 0, 0]
     (by decide) (by decide) (by decide) (by decide) (by decide) (by decide)
     (by decide)⟩

/-- C1 as stated is false: with `B = 65544` and the 65536-byte message
`replicate 65536 1` (whose padded frame fits, `4 + 65536 ≤ 65543`),
`send` succeeds but the following `try_recv` — into a buffer of 65536
bytes, at least `len(m)` as the claim requires — returns `ok 0`, not
`ok 65536`: the header's big-endian `u16` length field truncated the
length modulo `2 ^ 16`. -/
theorem claim_C1_counterexample :
    (send (emptyRingAt 65544 0 (fun _ => 0)) (List.replicate 65536 1)).2 = none ∧
    (tryRecv (send (emptyRingAt 65544 0 (fun _ => 0)) (List.replicate 65536 1)).1
      (List.replicate 65536 0)).2.2 = RecvResult.ok 0 ∧
    (List.replicate 65536 (1 : Nat)).length
      ≤ (List.replicate 65536 (0 : Nat)).length ∧
    (List.replicate 65536 (1 : Nat)).length ≠ 0 := by
  have hlen : (List.replicate 65536 (1 : Nat)).length = 65536 :=
    List.length_replicate 65536 1
  have hlen0 : (List.replicate 65536 (0 : Nat)).length = 65536 :=
    List.length_replicate 65536 0
  obtain ⟨h1, _, _, h4, _⟩ := send_recv_mod 65544 (fun _ => 0)
    (List.replicate 65536 1) (List.replicate 65536 0) (by decide) (by decide)
    (by rw [hlen]; decide) (by rw [hlen, hlen0]; decide)
  refine ⟨h1, ?_, by rw [hlen, hlen0], by rw [hlen]; decide⟩
  rw [h4, hlen]

/-- C2 (amended: every sent message has length ≤ 65535): FIFO ordering
per direction — for every call sequence on one direction starting from
an empty ring with zeroed indices, if every `send` succeeded and as many
`try_recv` calls succeeded as there were sends, then the successfully
received messages are exactly the sent messages, in order. -/
theorem claim_C2_fifo (B : Nat) (d : Nat → Nat) (ops : List Op)
    (hB4 : B % 4 = 0) (hB : 24 ≤ B)
    (hlen : ∀ m, Op.send m ∈ ops → m.length ≤ 65535)
    (hsends : (run (initRing B d) ops).2.2 = true)
    (hcount : (run (initRing B d) ops).2.1.length = (sentOf ops).length) :
    (run (initRing B d) ops).2.1 = sentOf ops := by
  obtain ⟨q2, _, heq⟩ := run_fifo ops (initRing B d) [] (Inv_init B d hB4 hB)
    hlen hsends
  rw [List.nil_append] at heq
  have hlen2 : (run (initRing B d) ops).2.1.length + q2.length
      = (sentOf ops).length := by
    rw [← heq, List.length_append]
  have hq2 : q2 = [] := List.eq_nil_of_length_eq_zero (by omega)
  rw [hq2, List.append_nil] at heq
  exact heq

/-- Witness for C2: two sends interleaved with two successful receives on
a 24-byte ring deliver the two messages in order. -/
theorem claim_C2_fifo_witness :
    ((24 : Nat) % 4 = 0 ∧ (24 : Nat) ≤ 24 ∧
      (run (initRing 24 (fun _ => 0))
        [Op.send [1, 2], Op.recv 8, Op.send [3], Op.recv 4]).2.2 = true ∧
      (run (initRing 24 (fun _ => 0))
        [Op.send [1, 2], Op.recv 8, Op.send [3], Op.recv 4]).2.1.length
        = (sentOf [Op.send [1, 2], Op.recv 8, Op.send [3], Op.recv 4]).length) ∧
    (run (initRing 24 (fun _ => 0))
      [Op.send [1, 2], Op.recv 8, Op.send [3], Op.recv 4]).2.1
      = sentOf [Op.send [1, 2], Op.recv 8, Op.send [3], Op.recv 4] :=
  ⟨⟨by decide, by decide, by decide, by decide⟩,
   claim_C2_fifo 24 (fun _ => 0) [Op.send [1, 2], Op.recv 8, Op.send [3], Op.recv 4]
     (by decide) (by decide)
     (by
       intro m hm
       simp only [List.mem_cons] at hm
       rcases hm with h | h | h | h | h
       · injection h with h2; subst h2; decide
       · exact Op.noConfusion h
       · injection h with h2; subst h2; decide
       · exact Op.noConfusion h
       · exact absurd h (List.not_mem_nil _))
     (by decide) (by decide)⟩

/-- Shape of a two-call trace whose send succeeds and whose receive
returns a zero-length message. -/
theorem run_send_recv_shape (s : Ring) (m : List Nat) (n : Nat)
    (h1 : (send s m).2 = none)
    (h4 : (tryRecv (send s m).1 (List.replicate n 0)).2.2 = RecvResult.ok 0) :
    (run s [Op.send m, Op.recv n]).2.2 = true ∧
    (run s [Op.send m, Op.recv n]).2.1 = [[]] := by
  simp only [run, h4, h1, List.take_zero, Option.isNone_none, Bool.true_and]
  exact ⟨trivial, trivial⟩

set_option maxRecDepth 10000 in
/-- C2 as stated is false: in the interleaving
`[send (replicate 65536 1), recv 0]` on a 65544-byte ring the one send
succeeds and the one `try_recv` succeeds, yet the received sequence is
`[[]]` (the header length wrapped to 65536 % 2 ^ 16 = 0), not the sent
sequence. -/
theorem claim_C2_counterexample :
    (run (initRing 65544 (fun _ => 0))
      [Op.send (List.replicate 65536 1), Op.recv 0]).2.2 = true ∧
    (run (initRing 65544 (fun _ => 0))
      [Op.send (List.replicate 65536 1), Op.recv 0]).2.1 = [[]] ∧
    sentOf [Op.send (List.replicate 65536 1), Op.recv 0]
      = [List.replicate 65536 1] ∧
    ([[]] : List (List Nat)) ≠ [List.replicate 65536 1] := by
  simp only [initRing]
  have hlen : (List.replicate 65536 (1 : Nat)).length = 65536 :=
    List.length_replicate 65536 1
  have hne : ([[]] : List (List Nat)) ≠ [List.replicate 65536 1] := by
    intro hcon
    have h2 : ([] : List Nat) = List.replicate 65536 1 := by
      injection hcon with ha hb
    have h3 := congrArg List.length h2
    rw [hlen] at h3
    exact absurd h3 (by decide)
  obtain ⟨h1, _, _, h4, _⟩ := send_recv_mod 65544 (fun _ => 0)
    (List.replicate 65536 1) (List.replicate 0 0) (by decide) (by decide)
    (by rw [hlen]; decide) (by rw [hlen]; decide)
  rw [hlen, Nat.mod_self] at h4
  obtain ⟨hflag, hrcvd⟩ := run_send_recv_shape (emptyRingAt 65544 0 (fun _ => 0))
    (List.replicate 65536 1) 0 h1 h4
  exact ⟨hflag, hrcvd, rfl, hne⟩

/-- C3: `send(msg)` returns `InsufficientCapacity` iff
`paddedLen (len msg) + 4` exceeds the free space
`(rd_idx − wr_idx − 1) mod buffer_len` computed from the current indices;
on that failure the whole state — shared region bytes, shared and local
indices, notifier count — is unchanged; otherwise `send` writes the frame
(header length bytes at `wr_idx`, payload bytes at `wr_idx + 4 + i` mod
`buffer_len`), publishes the advanced `wr_idx` to the cache and the shared
word, leaves the read-side indices alone, invokes the notifier exactly
once, and returns `Ok`. -/
theorem claim_C3_send_effects (s : Ring) (msg : List Nat)
    (hB4 : s.bufferLen % 4 = 0) (hB : 24 ≤ s.bufferLen)
    (hrd : s.rdIdx < s.bufferLen) (hwr : s.sendWrIdx < s.bufferLen)
    (hwr4 : s.sendWrIdx % 4 = 0) :
    ((send s msg).2 = some SendError.InsufficientCapacity
      ↔ freeSpecOf s < paddedLen msg.length + 4) ∧
    ((send s msg).2 = some SendError.InsufficientCapacity → (send s msg).1 = s) ∧
    ((send s msg).2 = none →
      ((send s msg).1.notifyCount = s.notifyCount + 1 ∧
       (send s msg).1.wrIdx = (s.sendWrIdx + 4 + paddedLen msg.length) % s.bufferLen ∧
       (send s msg).1.sendWrIdx = (send s msg).1.wrIdx ∧
       (send s msg).1.rdIdx = s.rdIdx ∧
       (send s msg).1.recvRdIdx = s.recvRdIdx ∧
       (send s msg).1.data s.sendWrIdx = msg.length % 65536 / 256 ∧
       (send s msg).1.data (s.sendWrIdx + 1) = msg.length % 65536 % 256 ∧
       ∀ i < msg.length,
         (send s msg).1.data ((s.sendWrIdx + 4 + i) % s.bufferLen)
           = msg.getD i 0)) := by
  have hBpos : 0 < s.bufferLen := by omega
  have hfree : freeSpecOf s
      = (if s.rdIdx > s.sendWrIdx then s.rdIdx - s.sendWrIdx - 1
         else s.rdIdx + s.bufferLen - s.sendWrIdx - 1) := by
    simp only [freeSpecOf]
    split
    · rename_i hc
      have h1 : ((s.rdIdx : Int) - s.sendWrIdx - 1) % s.bufferLen
          = (s.rdIdx : Int) - s.sendWrIdx - 1 :=
        Int.emod_eq_of_lt (by omega) (by omega)
      rw [h1]
      omega
    · rename_i hc
      have h1 : ((s.rdIdx : Int) - s.sendWrIdx - 1) % s.bufferLen
          = ((s.rdIdx : Int) - s.sendWrIdx - 1 + s.bufferLen * 1) % s.bufferLen :=
        Eq.symm (Int.add_mul_emod_self_left _ _ _)
      have h2 : ((s.rdIdx : Int) - s.sendWrIdx - 1 + s.bufferLen * 1) % s.bufferLen
          = (s.rdIdx : Int) - s.sendWrIdx - 1 + s.bufferLen * 1 :=
        Int.emod_eq_of_lt (by omega) (by omega)
      rw [h1, h2]
      omega
  have hfb : (if s.rdIdx > s.sendWrIdx then s.rdIdx - s.sendWrIdx - 1
      else s.rdIdx + s.bufferLen - s.sendWrIdx - 1) ≤ s.bufferLen - 1 := by
    split <;> omega
  by_cases hc : (if s.rdIdx > s.sendWrIdx then s.rdIdx - s.sendWrIdx - 1
      else s.rdIdx + s.bufferLen - s.sendWrIdx - 1) < paddedLen msg.length + 4
  · rw [send_fail s msg hc]
    refine ⟨⟨fun _ => by rw [hfree]; omega, fun _ => rfl⟩, fun _ => rfl, ?_⟩
    intro h
    exact absurd h (by simp)
  · have hfit : paddedLen msg.length + 4 ≤ s.bufferLen - 1 := by omega
    rw [send_ok_eq s msg hB4 hBpos hwr hwr4 (by omega) hc]
    obtain ⟨hs0, hs1, hsp, _⟩ := sendData_spec s.data s.bufferLen s.sendWrIdx msg
      hB4 hwr hwr4 hfit
    refine ⟨⟨fun h => absurd h (by simp), fun h => ?_⟩, fun h => ?_, fun _ => ?_⟩
    · rw [hfree] at h
      omega
    · exact absurd h (by simp)
    · refine ⟨rfl, ?_, rfl, rfl, rfl, hs0, hs1, hsp⟩
      show (s.sendWrIdx + frameLen msg) % s.bufferLen
        = (s.sendWrIdx + 4 + paddedLen msg.length) % s.bufferLen
      congr 1
      show s.sendWrIdx + (4 + paddedLen msg.length) = _
      omega

/-- Witness for C3: a concrete send of a 2-byte message on a fresh
24-byte ring. -/
theorem claim_C3_send_effects_witness :
    ((24 : Nat) % 4 = 0 ∧ (24 : Nat) ≤ 24 ∧
      (emptyRingAt 24 0 (fun _ => 0)).rdIdx < 24 ∧
      (emptyRingAt 24 0 (fun _ => 0)).sendWrIdx < 24 ∧
      (emptyRingAt 24 0 (fun _ => 0)).sendWrIdx % 4 = 0) ∧
    (((send (emptyRingAt 24 0 (fun _ => 0)) [7, 8]).2
        = some SendError.InsufficientCapacity
      ↔ freeSpecOf (emptyRingAt 24 0 (fun _ => 0))
        < paddedLen ([7, 8] : List Nat).length + 4) ∧
    ((send (emptyRingAt 24 0 (fun _ => 0)) [7, 8]).2
        = some SendError.InsufficientCapacity →
      (send (emptyRingAt 24 0 (fun _ => 0)) [7, 8]).1
        = emptyRingAt 24 0 (fun _ => 0)) ∧
    ((send (emptyRingAt 24 0 (fun _ => 0)) [7, 8]).2 = none →
      ((send (emptyRingAt 24 0 (fun _ => 0)) [7, 8]).1.notifyCount
          = (emptyRingAt 24 0 (fun _ => 0)).notifyCount + 1 ∧
       (send (emptyRingAt 24 0 (fun _ => 0)) [7, 8]).1.wrIdx
          = ((emptyRingAt 24 0 (fun _ => 0)).sendWrIdx + 4
            + paddedLen ([7, 8] : List Nat).length) % 24 ∧
       (send (emptyRingAt 24 0 (fun _ => 0)) [7, 8]).1.sendWrIdx
          = (send (emptyRingAt 24 0 (fun _ => 0)) [7, 8]).1.wrIdx ∧
       (send (emptyRingAt 24 0 (fun _ => 0)) [7, 8]).1.rdIdx
          = (emptyRingAt 24 0 (fun _ => 0)).rdIdx ∧
       (send (emptyRingAt 24 0 (fun _ => 0)) [7, 8]).1.recvRdIdx
          = (emptyRingAt 24 0 (fun _ => 0)).recvRdIdx ∧
       (send (emptyRingAt 24 0 (fun _ => 0)) [7, 8]).1.data
          (emptyRingAt 24 0 (fun _ => 0)).sendWrIdx
          = ([7, 8] : List Nat).length % 65536 / 256 ∧
       (send (emptyRingAt 24 0 (fun _ => 0)) [7, 8]).1.data
          ((emptyRingAt 24 0 (fun _ => 0)).sendWrIdx + 1)
          = ([7, 8] : List Nat).length % 65536 % 256 ∧
       ∀ i < ([7, 8] : List Nat).length,
         (send (emptyRingAt 24 0 (fun _ => 0)) [7, 8]).1.data
           (((emptyRingAt 24 0 (fun _ => 0)).sendWrIdx + 4 + i) % 24)
           = ([7, 8] : List Nat).getD i 0))) :=
  ⟨⟨by decide, by decide, by decide, by decide, by decide⟩,
   claim_C3_send_effects (emptyRingAt 24 0 (fun _ => 0)) [7, 8]
     (by decide) (by decide) (by decide) (by decide) (by decide)⟩

/-- The outcome taxonomy of claim C4 — `Empty` exactly when
`wr_idx == rd_idx`; for a non-empty ring whose next packet's header
length is `L`: `MessageTooBig` if `L` exceeds the caller's buffer, else
`InvalidMessage` if `L > recv_buffer_len`, else `Ok L` — holds of
transport.rs's `Receiver::try_recv`.  The claim is nevertheless settled
as a code bug, because the also-cited `IcMsg::try_recv` of lib.rs lacks
the `InvalidMessage` arm (see the C4 theorem below). -/
theorem recv_taxonomy_matches_spec (s : Ring) (out : List Nat) :
    (tryRecv s out).2.2 = recvOutcomeSpec s out.length := by
  simp only [tryRecv, recvOutcomeSpec, headerLenAt]
  by_cases h1 : s.wrIdx = s.recvRdIdx
  · rw [if_pos h1, if_pos h1]
  · rw [if_neg h1, if_neg h1]
    by_cases h2 : s.data s.recvRdIdx * 256 + s.data (s.recvRdIdx + 1) > out.length
    · rw [if_pos h2, if_pos h2]
    · rw [if_neg h2, if_neg h2]
      by_cases h3 : s.data s.recvRdIdx * 256 + s.data (s.recvRdIdx + 1) > s.bufferLen
      · rw [if_pos h3, if_pos h3]
      · rw [if_neg h3, if_neg h3]

/-- C4: the taxonomy is the spec's intent (spec §4.1 step 5: "If
`L > buffer_len`, return `InvalidMessage`") and `Receiver::try_recv`
implements it, but the also-cited `IcMsg::try_recv` (src/lib.rs
126-150) has no `InvalidMessage` check at all — its `RecvError` lacks
the variant.  Evaluation at the failing input: a 24-byte ring whose next
packet's header length field reads 25 (a framing violation), received
into a 25-byte buffer.  The taxonomy requires `Err(InvalidMessage)`
(25 > recv_buffer_len = 24); `IcMsg::try_recv` instead copies and
returns `Ok 25`. -/
theorem claim_C4_libtaxonomy_bug :
    (tryRecvIcMsg { bufferLen := 24, rdIdx := 0, wrIdx := 4, recvRdIdx := 0,
                    sendWrIdx := 4, data := fun x => [0, 25].getD x 0,
                    notifyCount := 0 }
      (List.replicate 25 0)).2.2 = RecvResult.ok 25 ∧
    recvOutcomeSpec { bufferLen := 24, rdIdx := 0, wrIdx := 4, recvRdIdx := 0,
                      sendWrIdx := 4, data := fun x => [0, 25].getD x 0,
                      notifyCount := 0 }
      (List.replicate 25 0).length = RecvResult.err RecvError.InvalidMessage ∧
    RecvResult.ok 25 ≠ RecvResult.err RecvError.InvalidMessage := by
  decide

/-- C5: `try_recv` is atomic on error — every error return leaves the
state and the caller's buffer untouched, and after `MessageTooBig` a
retry with a buffer of at least the message's length returns the same
message with the same bytes. -/
theorem claim_C5_recv_error_atomic :
    (∀ (s : Ring) (out : List Nat) (e : RecvError),
      (tryRecv s out).2.2 = RecvResult.err e →
      (tryRecv s out).1 = s ∧ (tryRecv s out).2.1 = out) ∧
    (∀ (s : Ring) (m : List Nat) (q : List (List Nat)) (out out2 : List Nat),
      Inv s (m :: q) → out.length < m.length → m.length ≤ out2.length →
      tryRecv s out = (s, out, RecvResult.err RecvError.MessageTooBig) ∧
      (tryRecv s out2).2.2 = RecvResult.ok m.length ∧
      (tryRecv s out2).2.1.take m.length = m) := by
  constructor
  · exact tryRecv_err
  · intro s m q out out2 inv hsmall hbig
    obtain ⟨hok, htake, _⟩ := tryRecv_ok s q m out2 inv hbig
    exact ⟨tryRecv_too_big s q m out inv hsmall, hok, htake⟩

/-- Witness for C5: a ring holding the queued message `[1,2,3,4,5]`;
`try_recv` into a 2-byte buffer fails with `MessageTooBig` and changes
nothing, and a retry with an 8-byte buffer returns the message. -/
theorem claim_C5_recv_error_atomic_witness :
    (Inv { bufferLen := 24, rdIdx := 0, wrIdx := 12, recvRdIdx := 0, sendWrIdx := 12,
           data := fun x => [0, 5, 0, 0, 1, 2, 3, 4, 5].getD x 0, notifyCount := 0 }
        [[1, 2, 3, 4, 5]] ∧
      ([0, 0] : List Nat).length < ([1, 2, 3, 4, 5] : List Nat).length ∧
      ([1, 2, 3, 4, 5] : List Nat).length
        ≤ ([0, 0, 0, 0, 0, 0, 0, 0] : List Nat).length) ∧
    (tryRecv { bufferLen := 24, rdIdx := 0, wrIdx := 12, recvRdIdx := 0, sendWrIdx := 12,
               data := fun x => [0, 5, 0, 0, 1, 2, 3, 4, 5].getD x 0, notifyCount := 0 }
        [0, 0]
      = ({ bufferLen := 24, rdIdx := 0, wrIdx := 12, recvRdIdx := 0, sendWrIdx := 12,
           data := fun x => [0, 5, 0, 0, 1, 2, 3, 4, 5].getD x 0, notifyCount := 0 },
         [0, 0], RecvResult.err RecvError.MessageTooBig) ∧
     (tryRecv { bufferLen := 24, rdIdx := 0, wrIdx := 12, recvRdIdx := 0, sendWrIdx := 12,
                data := fun x => [0, 5, 0, 0, 1, 2, 3, 4, 5].getD x 0, notifyCount := 0 }
        [0, 0, 0, 0, 0, 0, 0, 0]).2.2
      = RecvResult.ok ([1, 2, 3, 4, 5] : List Nat).length ∧
     (tryRecv { bufferLen := 24, rdIdx := 0, wrIdx := 12, recvRdIdx := 0, sendWrIdx := 12,
                data := fun x => [0, 5, 0, 0, 1, 2, 3, 4, 5].getD x 0, notifyCount := 0 }
        [0, 0, 0, 0, 0, 0, 0, 0]).2.1.take ([1, 2, 3, 4, 5] : List Nat).length
      = [1, 2, 3, 4, 5]) := by
  have hinv : Inv { bufferLen := 24, rdIdx := 0, wrIdx := 12, recvRdIdx := 0,
                    sendWrIdx := 12,
                    data := fun x => [0, 5, 0, 0, 1, 2, 3, 4, 5].getD x 0,
                    notifyCount := 0 } [[1, 2, 3, 4, 5]] :=
    ⟨⟨by decide, by decide, by decide, by decide, by decide, by decide, by decide,
       by decide⟩,
     by decide, ⟨⟨by decide, by decide, by decide⟩, trivial⟩, by decide, by decide⟩
  exact ⟨⟨hinv, by decide, by decide⟩,
    claim_C5_recv_error_atomic.2 _ [1, 2, 3, 4, 5] [] [0, 0]
      [0, 0, 0, 0, 0, 0, 0, 0] hinv (by decide) (by decide)⟩

/-- C6: starting from `rd_idx = wr_idx = 0` with `bufferLen` a multiple
of 4 and at least 24, after every sequence of `send` and `try_recv`
operations on a direction, every index — the shared `rd_idx` and
`wr_idx` and the local cached copies — is below `bufferLen` and a
multiple of 4. -/
theorem claim_C6_index_invariant (B : Nat) (d : Nat → Nat) (ops : List Op)
    (hB4 : B % 4 = 0) (hB : 24 ≤ B) :
    (run (initRing B d) ops).1.bufferLen = B ∧
    (run (initRing B d) ops).1.rdIdx < B ∧
    (run (initRing B d) ops).1.rdIdx % 4 = 0 ∧
    (run (initRing B d) ops).1.wrIdx < B ∧
    (run (initRing B d) ops).1.wrIdx % 4 = 0 ∧
    (run (initRing B d) ops).1.recvRdIdx < B ∧
    (run (initRing B d) ops).1.recvRdIdx % 4 = 0 ∧
    (run (initRing B d) ops).1.sendWrIdx < B ∧
    (run (initRing B d) ops).1.sendWrIdx % 4 = 0 := by
  have hidx : IdxInv (initRing B d) :=
    ⟨hB4, hB, rfl, rfl, show (0 : Nat) < B by omega, rfl,
     show (0 : Nat) < B by omega, rfl⟩
  obtain ⟨inv, hbl⟩ := run_idx ops (initRing B d) hidx
  obtain ⟨hB4r, hBr, rdEq, wrEq, hrd, hrd4, hwr, hwr4⟩ := inv
  have hbl2 : (run (initRing B d) ops).1.bufferLen = B := hbl
  rw [hbl2] at hrd hwr
  exact ⟨hbl2, by rw [rdEq]; exact hrd, by rw [rdEq]; exact hrd4,
    by rw [wrEq]; exact hwr, by rw [wrEq]; exact hwr4, hrd, hrd4, hwr, hwr4⟩

/-- Witness for C6: a concrete call sequence with sends and receives,
some failing, on a fresh 24-byte ring. -/
theorem claim_C6_index_invariant_witness :
    ((24 : Nat) % 4 = 0 ∧ (24 : Nat) ≤ 24) ∧
    ((run (initRing 24 (fun _ => 0))
        [Op.send [9, 9, 9], Op.recv 4, Op.recv 8, Op.send []]).1.bufferLen = 24 ∧
     (run (initRing 24 (fun _ => 0))
        [Op.send [9, 9, 9], Op.recv 4, Op.recv 8, Op.send []]).1.rdIdx < 24 ∧
     (run (initRing 24 (fun _ => 0))
        [Op.send [9, 9, 9], Op.recv 4, Op.recv 8, Op.send []]).1.rdIdx % 4 = 0 ∧
     (run (initRing 24 (fun _ => 0))
        [Op.send [9, 9, 9], Op.recv 4, Op.recv 8, Op.send []]).1.wrIdx < 24 ∧
     (run (initRing 24 (fun _ => 0))
        [Op.send [9, 9, 9], Op.recv 4, Op.recv 8, Op.send []]).1.wrIdx % 4 = 0 ∧
     (run (initRing 24 (fun _ => 0))
        [Op.send [9, 9, 9], Op.recv 4, Op.recv 8, Op.send []]).1.recvRdIdx < 24 ∧
     (run (initRing 24 (fun _ => 0))
        [Op.send [9, 9, 9], Op.recv 4, Op.recv 8, Op.send []]).1.recvRdIdx % 4 = 0 ∧
     (run (initRing 24 (fun _ => 0))
        [Op.send [9, 9, 9], Op.recv 4, Op.recv 8, Op.send []]).1.sendWrIdx < 24 ∧
     (run (initRing 24 (fun _ => 0))
        [Op.send [9, 9, 9], Op.recv 4, Op.recv 8, Op.send []]).1.sendWrIdx % 4 = 0) :=
  ⟨⟨by decide, by decide⟩,
   claim_C6_index_invariant 24 (fun _ => 0)
     [Op.send [9, 9, 9], Op.recv 4, Op.recv 8, Op.send []] (by decide) (by decide)⟩

/-- C7 as stated is false at the concrete buffer length `B = 24`: every
frame (4-byte header plus 4-byte-padded payload) occupies a multiple of
4 bytes, so no sequence of messages has frames totalling exactly
`B − 1 = 23` bytes — let alone one that also fills the ring. -/
theorem claim_C7_counterexample :
    ¬ ∃ msgs : List (List Nat), queueLen msgs = 23 := by
  rintro ⟨msgs, h⟩
  have h4 := queueLen_mod4 msgs
  omega

theorem queueLen_replicate_nil (k : Nat) :
    queueLen (List.replicate k ([] : List Nat)) = 4 * k := by
  induction k with
  | zero => rfl
  | succ k ih =>
    rw [List.replicate_succ, queueLen_cons, ih]
    show 4 + 4 * k = 4 * (k + 1)
    omega

/-- C7 (amended: the maximal total is `B − 4`, the largest multiple of 4
within the `B − 1`-byte capacity, not `B − 1` itself): with
`bufferLen = B` and the ring initially empty, the `(B − 4)/4` empty
messages have frames totalling exactly `B − 4` bytes, every send of them
succeeds, and afterwards any send — even of an empty message — fails
with `InsufficientCapacity`. -/
theorem claim_C7_capacity (B : Nat) (d : Nat → Nat)
    (hB4 : B % 4 = 0) (hB : 24 ≤ B) :
    queueLen (List.replicate ((B - 4) / 4) ([] : List Nat)) = B - 4 ∧
    (run (initRing B d)
      ((List.replicate ((B - 4) / 4) ([] : List Nat)).map Op.send)).2.2 = true ∧
    ∀ msg2 : List Nat,
      (send (run (initRing B d)
        ((List.replicate ((B - 4) / 4) ([] : List Nat)).map Op.send)).1 msg2).2
      = some SendError.InsufficientCapacity := by
  have hq : queueLen (List.replicate ((B - 4) / 4) ([] : List Nat)) = B - 4 := by
    rw [queueLen_replicate_nil]
    omega
  have hidx : IdxInv (initRing B d) :=
    ⟨hB4, hB, rfl, rfl, show (0 : Nat) < B by omega, rfl,
     show (0 : Nat) < B by omega, rfl⟩
  obtain ⟨hflag, hinv⟩ := run_sends_all (List.replicate ((B - 4) / 4) ([] : List Nat))
    (initRing B d) [] (Inv_init B d hB4 hB)
    (fun m hm => by rw [List.eq_of_mem_replicate hm]; exact Nat.zero_le _)
    (by rw [queueLen_nil, hq]; show 0 + (B - 4) ≤ B - 1; omega)
  rw [List.nil_append] at hinv
  obtain ⟨_, hbl⟩ := run_idx
    ((List.replicate ((B - 4) / 4) ([] : List Nat)).map Op.send) (initRing B d) hidx
  have hbl2 : (run (initRing B d)
      ((List.replicate ((B - 4) / 4) ([] : List Nat)).map Op.send)).1.bufferLen
      = B := hbl
  refine ⟨hq, hflag, ?_⟩
  intro msg2
  have hfree := free_formula _ _ hinv
  rw [send_fail _ msg2 (by rw [hfree, hq, hbl2]; omega)]

/-- Witness for C7: the concrete instance `B = 24` — five empty messages
(20 frame bytes) fill the ring and any further send fails. -/
theorem claim_C7_capacity_witness :
    ((24 : Nat) % 4 = 0 ∧ (24 : Nat) ≤ 24) ∧
    (queueLen (List.replicate ((24 - 4) / 4) ([] : List Nat)) = 24 - 4 ∧
     (run (initRing 24 (fun _ => 0))
       ((List.replicate ((24 - 4) / 4) ([] : List Nat)).map Op.send)).2.2 = true ∧
     ∀ msg2 : List Nat,
       (send (run (initRing 24 (fun _ => 0))
         ((List.replicate ((24 - 4) / 4) ([] : List Nat)).map Op.send)).1 msg2).2
       = some SendError.InsufficientCapacity) :=
  ⟨⟨by decide, by decide⟩,
   claim_C7_capacity 24 (fun _ => 0) (by decide) (by decide)⟩

/-- The property of claim C8 — when `try_recv(out)` returns `Ok n`, only
`out[0..n]` is written, each of those bytes from the packet's payload in
the ring (the wrapped offsets past the header), and `out[n..]`, like the
buffer's length, is unchanged — holds of transport.rs's
`Receiver::try_recv`, whose wrap branch splits `msg[..msg_len]`.  The
claim is settled as a code bug because the also-cited `IcMsg::try_recv`
of lib.rs splits the whole buffer (see the C8 theorem below). -/
theorem tryRecv_writes_front_only (s : Ring) (out : List Nat) (n : Nat)
    (hB : 0 < s.bufferLen) (h : (tryRecv s out).2.2 = RecvResult.ok n) :
    (tryRecv s out).2.1.length = out.length ∧
    (tryRecv s out).2.1.drop n = out.drop n ∧
    ∀ i < n, (tryRecv s out).2.1.getD i 0
      = s.data ((rdPastHeader s + i) % s.bufferLen) := by
  by_cases h1 : s.wrIdx = s.recvRdIdx
  · rw [show (tryRecv s out) = (s, out, RecvResult.err RecvError.Empty) from by
      simp only [tryRecv, if_pos h1]] at h
    exact absurd h (by simp)
  · by_cases h2 : s.data s.recvRdIdx * 256 + s.data (s.recvRdIdx + 1) > out.length
    · rw [show (tryRecv s out) = (s, out, RecvResult.err RecvError.MessageTooBig) from by
        simp only [tryRecv, if_neg h1, if_pos h2]] at h
      exact absurd h (by simp)
    · by_cases h3 : s.data s.recvRdIdx * 256 + s.data (s.recvRdIdx + 1) > s.bufferLen
      · rw [show (tryRecv s out) = (s, out, RecvResult.err RecvError.InvalidMessage) from by
          simp only [tryRecv, if_neg h1, if_neg h2, if_pos h3]] at h
        exact absurd h (by simp)
      · have htr : (tryRecv s out).2.1 = recvCopy out s.data s.bufferLen
            (rdPastHeader s) (s.data s.recvRdIdx * 256 + s.data (s.recvRdIdx + 1))
            ∧ (tryRecv s out).2.2 = RecvResult.ok
              (s.data s.recvRdIdx * 256 + s.data (s.recvRdIdx + 1)) := by
          simp only [tryRecv, if_neg h1, if_neg h2, if_neg h3]
          exact ⟨rfl, trivial⟩
        have hn : s.data s.recvRdIdx * 256 + s.data (s.recvRdIdx + 1) = n := by
          have h4 := htr.2
          rw [h] at h4
          injection h4.symm
        have hrp : rdPastHeader s < s.bufferLen := by
          simp only [rdPastHeader]
          split <;> omega
        refine ⟨?_, ?_, ?_⟩
        · rw [htr.1, recvCopy_length]
        · rw [htr.1]
          exact drop_eq_of_getD n (by rw [recvCopy_length])
            (fun x hx => by
              rw [hn] at h2 ⊢
              exact recvCopy_out out s.data s.bufferLen (rdPastHeader s) n x hx)
        · intro i hi
          rw [htr.1, hn]
          exact recvCopy_get out s.data s.bufferLen (rdPastHeader s) n hrp
            (by omega) (by omega) i hi

/-- Concrete instance of `tryRecv_writes_front_only`: receiving a queued
2-byte message into a 4-byte buffer writes positions 0 and 1 and keeps
the rest. -/
theorem tryRecv_writes_front_only_example :
    (0 < ({ bufferLen := 24, rdIdx := 0, wrIdx := 8, recvRdIdx := 0, sendWrIdx := 8,
            data := fun x => [0, 2, 0, 0, 7, 9].getD x 0,
            notifyCount := 0 } : Ring).bufferLen ∧
     (tryRecv { bufferLen := 24, rdIdx := 0, wrIdx := 8, recvRdIdx := 0, sendWrIdx := 8,
                data := fun x => [0, 2, 0, 0, 7, 9].getD x 0, notifyCount := 0 }
       [5, 5, 5, 5]).2.2 = RecvResult.ok 2) ∧
    ((tryRecv { bufferLen := 24, rdIdx := 0, wrIdx := 8, recvRdIdx := 0, sendWrIdx := 8,
                data := fun x => [0, 2, 0, 0, 7, 9].getD x 0, notifyCount := 0 }
       [5, 5, 5, 5]).2.1.length = ([5, 5, 5, 5] : List Nat).length ∧
     (tryRecv { bufferLen := 24, rdIdx := 0, wrIdx := 8, recvRdIdx := 0, sendWrIdx := 8,
                data := fun x => [0, 2, 0, 0, 7, 9].getD x 0, notifyCount := 0 }
       [5, 5, 5, 5]).2.1.drop 2 = ([5, 5, 5, 5] : List Nat).drop 2 ∧
     ∀ i < 2,
       (tryRecv { bufferLen := 24, rdIdx := 0, wrIdx := 8, recvRdIdx := 0, sendWrIdx := 8,
                  data := fun x => [0, 2, 0, 0, 7, 9].getD x 0, notifyCount := 0 }
         [5, 5, 5, 5]).2.1.getD i 0
       = ({ bufferLen := 24, rdIdx := 0, wrIdx := 8, recvRdIdx := 0, sendWrIdx := 8,
            data := fun x => [0, 2, 0, 0, 7, 9].getD x 0,
            notifyCount := 0 } : Ring).data
           ((rdPastHeader { bufferLen := 24, rdIdx := 0, wrIdx := 8, recvRdIdx := 0,
                            sendWrIdx := 8,
                            data := fun x => [0, 2, 0, 0, 7, 9].getD x 0,
                            notifyCount := 0 } + i) % 24)) :=
  ⟨⟨by decide, by decide⟩,
   tryRecv_writes_front_only
     { bufferLen := 24, rdIdx := 0, wrIdx := 8, recvRdIdx := 0, sendWrIdx := 8,
       data := fun x => [0, 2, 0, 0, 7, 9].getD x 0, notifyCount := 0 }
     [5, 5, 5, 5] 2 (by decide) (by decide)⟩

/-- C8: the claim is the spec's intent (spec §4.1 step 6: copy `L`
payload bytes into `out[..L]`) and `Receiver::try_recv` implements it,
but the also-cited copy of `IcMsg::try_recv` (src/lib.rs 152-163) is a
slip, fixed in transport.rs: its wrap branch does
`msg.split_at_mut(tail_size)` on the whole output buffer, so the second
`memcpy` copies `out.len() - tail_size` bytes.  Evaluation at the
failing input: a 16-byte ring (the configuration of the crate's own
test) holding a wrapped 5-byte packet `[1,2,3,4,5]` at `rd_idx = 8`,
with stale ring bytes 77, 78, 79 at offsets 1..3, received into the
8-byte buffer `[9,9,9,9,9,9,9,9]`.  `IcMsg::try_recv` returns `Ok 5`
but overwrites `out[5..8]` with the stale ring bytes, while
`Receiver::try_recv` at the same state leaves `out[5..8]` untouched. -/
theorem claim_C8_libcopy_bug :
    (tryRecvIcMsg { bufferLen := 16, rdIdx := 8, wrIdx := 4, recvRdIdx := 8,
                    sendWrIdx := 4,
                    data := fun x =>
                      [5, 77, 78, 79, 0, 0, 0, 0, 0, 5, 0, 0, 1, 2, 3, 4].getD x 0,
                    notifyCount := 0 }
      [9, 9, 9, 9, 9, 9, 9, 9]).2.2 = RecvResult.ok 5 ∧
    (tryRecvIcMsg { bufferLen := 16, rdIdx := 8, wrIdx := 4, recvRdIdx := 8,
                    sendWrIdx := 4,
                    data := fun x =>
                      [5, 77, 78, 79, 0, 0, 0, 0, 0, 5, 0, 0, 1, 2, 3, 4].getD x 0,
                    notifyCount := 0 }
      [9, 9, 9, 9, 9, 9, 9, 9]).2.1 = [1, 2, 3, 4, 5, 77, 78, 79] ∧
    (tryRecvIcMsg { bufferLen := 16, rdIdx := 8, wrIdx := 4, recvRdIdx := 8,
                    sendWrIdx := 4,
                    data := fun x =>
                      [5, 77, 78, 79, 0, 0, 0, 0, 0, 5, 0, 0, 1, 2, 3, 4].getD x 0,
                    notifyCount := 0 }
      [9, 9, 9, 9, 9, 9, 9, 9]).2.1.drop 5
      ≠ ([9, 9, 9, 9, 9, 9, 9, 9] : List Nat).drop 5 ∧
    (tryRecv { bufferLen := 16, rdIdx := 8, wrIdx := 4, recvRdIdx := 8,
               sendWrIdx := 4,
               data := fun x =>
                 [5, 77, 78, 79, 0, 0, 0, 0, 0, 5, 0, 0, 1, 2, 3, 4].getD x 0,
               notifyCount := 0 }
      [9, 9, 9, 9, 9, 9, 9, 9]).2.1 = [1, 2, 3, 4, 5, 9, 9, 9] := by
  decide

/-- C9 as stated is false of both cited constructors:
`IcMsgTransport::new` stores zero only into the *send* region's index
words — a recv region whose words held 4 and 8 before the call still
holds them afterwards — and `IcMsg::new` stores no zeros at all — even
a send region whose words held 4 and 8 keeps them. -/
theorem claim_C9_counterexample :
    (transportNew { rd := 0, wr := 0 } { rd := 4, wr := 8 }).2.1
      ≠ ({ rd := 0, wr := 0 } : RegionWords) ∧
    (icmsgNew { rd := 4, wr := 8 } { rd := 4, wr := 8 }).1
      ≠ ({ rd := 0, wr := 0 } : RegionWords) := by
  decide

/-- C9 (amended: construction resets only the index words the
constructor itself owns, not both regions): `IcMsgTransport::new` stores
zero into the send region's `rd_idx` and `wr_idx` words and starts both
local cached indices at zero, leaving the recv region's words unchanged
(the peer's own constructor resets those); `IcMsg::new` stores no index
words at all — it leaves both regions' words unchanged, its contract
requiring the caller to pass pre-zeroed header words. -/
theorem claim_C9_new_resets (sendW recvW sendW2 recvW2 : RegionWords) :
    ((transportNew sendW recvW).1 = { rd := 0, wr := 0 } ∧
     (transportNew sendW recvW).2.1 = recvW ∧
     (transportNew sendW recvW).2.2.1 = 0 ∧
     (transportNew sendW recvW).2.2.2 = 0) ∧
    ((icmsgNew sendW2 recvW2).1 = sendW2 ∧
     (icmsgNew sendW2 recvW2).2 = recvW2) :=
  ⟨⟨rfl, rfl, rfl, rfl⟩, rfl, rfl⟩

/-- C10: `send` does not reject over-long messages — for every message of
length `L > 65535` whose free-space check (computed with the full padded
`L`) passes on an empty ring, `send` returns `Ok` but stores `L mod 2^16`
in the packet header's big-endian length field, so the peer's `try_recv`
of that packet yields a message of length `L mod 2^16`, not `L`. -/
theorem claim_C10_send_truncates (B : Nat) (d : Nat → Nat) (m out : List Nat)
    (hbig : 65535 < m.length) (hB4 : B % 4 = 0) (hB : 24 ≤ B)
    (hfit : paddedLen m.length + 4 ≤ B - 1)
    (hout : m.length % 65536 ≤ out.length) :
    (send (emptyRingAt B 0 d) m).2 = none ∧
    (send (emptyRingAt B 0 d) m).1.data 0 = m.length % 65536 / 256 ∧
    (send (emptyRingAt B 0 d) m).1.data 1 = m.length % 65536 % 256 ∧
    (tryRecv (send (emptyRingAt B 0 d) m).1 out).2.2
      = RecvResult.ok (m.length % 65536) ∧
    m.length % 65536 ≠ m.length := by
  obtain ⟨h1, h2, h3, h4, _⟩ := send_recv_mod B d m out hB4 hB hfit hout
  exact ⟨h1, h2, h3, h4, by omega⟩

/-- Witness for C10: the 65536-byte message on a 65544-byte ring — the
receive returns length 65536 % 2 ^ 16 = 0. -/
theorem claim_C10_send_truncates_witness :
    (65535 < (List.replicate 65536 (1 : Nat)).length ∧
     (65544 : Nat) % 4 = 0 ∧ (24 : Nat) ≤ 65544 ∧
     paddedLen (List.replicate 65536 (1 : Nat)).length + 4 ≤ 65544 - 1 ∧
     (List.replicate 65536 (1 : Nat)).length % 65536 ≤ ([] : List Nat).length) ∧
    ((send (emptyRingAt 65544 0 (fun _ => 0)) (List.replicate 65536 1)).2 = none ∧
     (send (emptyRingAt 65544 0 (fun _ => 0)) (List.replicate 65536 1)).1.data 0
       = (List.replicate 65536 (1 : Nat)).length % 65536 / 256 ∧
     (send (emptyRingAt 65544 0 (fun _ => 0)) (List.replicate 65536 1)).1.data 1
       = (List.replicate 65536 (1 : Nat)).length % 65536 % 256 ∧
     (tryRecv (send (emptyRingAt 65544 0 (fun _ => 0)) (List.replicate 65536 1)).1
       []).2.2 = RecvResult.ok ((List.replicate 65536 (1 : Nat)).length % 65536) ∧
     (List.replicate 65536 (1 : Nat)).length % 65536
       ≠ (List.replicate 65536 (1 : Nat)).length) := by
  have hlen : (List.replicate 65536 (1 : Nat)).length = 65536 :=
    List.length_replicate 65536 1
  refine ⟨⟨by rw [hlen]; decide, by decide, by decide, by rw [hlen]; decide,
    by rw [hlen]; decide⟩, ?_⟩
  exact claim_C10_send_truncates 65544 (fun _ => 0) (List.replicate 65536 1) []
    (by rw [hlen]; decide) (by decide) (by decide) (by rw [hlen]; decide)
    (by rw [hlen]; decide)

end IcmsgRs
